import Mathlib

/-!
The llgo-build utilities (`cmd/llgo-build/utils.go`).

A shallow embedding of the five helpers of `utils.go` and of the parts of the
Go standard library they call, followed by theorems about them.

Go strings are modelled as lists of characters (`Str`); a valid UTF-8 string is
identified with its sequence of code points.  Paths follow the Unix flavour of
`path/filepath` (separator `/`, no volume names).

The filesystem is a directory of entries linked to numbered inodes: one entry
may be spelled by several paths, several entries may be linked to one inode
(hard links), and an inode may be a symbolic link, which `open` and `stat`
follow and `rename`, `remove` and `lstat` do not.
-/

namespace LlgoBuild

/-! ## Strings -/

/-- Go `string`, as the sequence of its runes. -/
abbrev Str := List Char

/-- Go `strings.HasSuffix(s, suffix)`. -/
def HasSuffix (s suffix : Str) : Bool :=
  suffix.length ≤ s.length && s.drop (s.length - suffix.length) == suffix

/-- Go `strings.HasPrefix(s, pre)`. -/
def HasPrefix (s pre : Str) : Bool :=
  pre.length ≤ s.length && s.take pre.length == pre

/-- Go `strings.Join(elems, sep)`. -/
def stringsJoin : List Str → Str → Str
  | [], _ => []
  | [e], _ => e
  | e :: es, sep => e ++ sep ++ stringsJoin es sep

/-- Go `unicode.IsSpace`: the Unicode White_Space property. -/
def isSpace (c : Char) : Bool :=
  let n := c.toNat
  n == 0x09 || n == 0x0A || n == 0x0B || n == 0x0C || n == 0x0D || n == 0x20 ||
  n == 0x85 || n == 0xA0 || n == 0x1680 || (0x2000 ≤ n && n ≤ 0x200A) ||
  n == 0x2028 || n == 0x2029 || n == 0x202F || n == 0x205F || n == 0x3000

/-- State of the second loop of Go `strings.FieldsFunc`: the fields emitted so
far (`a[:na]`) and the field being scanned (`s[fieldStart:i]`, or `none` when
`fieldStart` is `-1`). -/
structure FieldsState where
  done : List Str
  cur : Option Str

/-- One iteration of `for i, rune := range s` in `strings.FieldsFunc`. -/
def fieldsStep (f : Char → Bool) (st : FieldsState) (r : Char) : FieldsState :=
  if f r then
    match st.cur with
    | some fld => { done := st.done ++ [fld], cur := none }
    | none => st
  else
    match st.cur with
    | some fld => { st with cur := some (fld ++ [r]) }
    | none => { st with cur := some [r] }

/-- Go `strings.FieldsFunc(s, f)`: the loop, then the field that ends at EOF. -/
def FieldsFunc (s : Str) (f : Char → Bool) : List Str :=
  let st := s.foldl (fieldsStep f) { done := [], cur := none }
  match st.cur with
  | some fld => st.done ++ [fld]
  | none => st.done

/-- Go `strings.Fields(s)`. -/
def Fields (s : Str) : List Str := FieldsFunc s isSpace

/-! ## Errors -/

/-- Go `error` values that the helpers can return. -/
inductive Error where
  /-- Value built by `fmt.Errorf`. -/
  | errorf (msg : Str)
  /-- Value of type `*os.PathError` or `*os.LinkError`: a failed system call. -/
  | pathError (op : Str) (path : Str)
  /-- Error value handed back by a collaborator (resolver, command runner). -/
  | external (code : Nat)
  deriving DecidableEq, Repr

/-! ## path/filepath (Unix) -/

namespace filepath

/-- Index just past the final separator of `path` (0 when there is none):
the value `i+1` reached by the backwards scan of `filepath.Split` and
`filepath.Dir`. -/
def lastSepEnd : Str → Nat
  | [] => 0
  | c :: cs =>
    let k := lastSepEnd cs
    if k = 0 then (if c = '/' then 1 else 0) else k + 1

/-- Go `filepath.Split(path)`: `(path[:i+1], path[i+1:])`. -/
def Split (path : Str) : Str × Str :=
  let i := lastSepEnd path
  (path.take i, path.drop i)

/-- Go `filepath.IsAbs(path)` on Unix. -/
def IsAbs (path : Str) : Bool := HasPrefix path ['/']

/-- Inner loop of the `..` case of `filepath.Clean`: starting from index `w`
(already decremented once), move left while `w > dotdot` and `out[w]` is not a
separator. -/
def backtrack (out : Str) (dotdot : Nat) : Nat → Nat
  | 0 => 0
  | w + 1 =>
    if dotdot < w + 1 ∧ out.getD (w + 1) '/' ≠ '/' then backtrack out dotdot w else w + 1

/-- Main loop of Go `filepath.Clean`: `path` is the unread input `path[r:]`,
`out` the buffer `buf[:w]`; returns the final buffer.  Every iteration
consumes at least one character, so `path.length` units of fuel suffice. -/
def cleanLoop (rooted : Bool) : Nat → Str → Str → Nat → Str
  | 0, _, out, _ => out
  | fuel + 1, path, out, dotdot =>
    match path with
    | [] => out
    | c :: rest =>
      if c = '/' then
        -- empty path element
        cleanLoop rooted fuel rest out dotdot
      else if c = '.' ∧ (rest = [] ∨ rest.head? = some '/') then
        -- . element
        cleanLoop rooted fuel rest out dotdot
      else if c = '.' ∧ rest.head? = some '.' ∧
          (rest.tail = [] ∨ rest.tail.head? = some '/') then
        -- .. element: remove to last separator
        if dotdot < out.length then
          cleanLoop rooted fuel rest.tail
            (out.take (backtrack out dotdot (out.length - 1))) dotdot
        else if rooted = false then
          let out1 := (if 0 < out.length then out ++ ['/'] else out) ++ ['.', '.']
          cleanLoop rooted fuel rest.tail out1 out1.length
        else
          cleanLoop rooted fuel rest.tail out dotdot
      else
        -- real path element: add slash if needed, then copy the element
        let out1 :=
          if (rooted = true ∧ out.length ≠ 1) ∨ (rooted = false ∧ out.length ≠ 0)
          then out ++ ['/'] else out
        cleanLoop rooted fuel ((c :: rest).dropWhile (· ≠ '/'))
          (out1 ++ (c :: rest).takeWhile (· ≠ '/')) dotdot

/-- Go `filepath.Clean(path)` on Unix. -/
def Clean (path : Str) : Str :=
  match path with
  | [] => ['.']
  | c :: rest =>
    let rooted := c = '/'
    let out :=
      if rooted then cleanLoop true path.length rest ['/'] 1
      else cleanLoop false path.length path [] 0
    if out.length = 0 then ['.'] else out

/-- Go `filepath.Join(elem...)`. -/
def Join : List Str → Str
  | [] => []
  | e :: es => if e ≠ [] then Clean (stringsJoin (e :: es) ['/']) else Join es

/-- Go `filepath.Dir(path)` on Unix. -/
def Dir (path : Str) : Str := Clean (path.take (lastSepEnd path))

end filepath

/-! ## os, io, go/build: the collaborators -/

/-- Go `os.FileMode`, reduced to the directory bit and the permission bits
(the nine `rwx` bits together with setuid, setgid and sticky). -/
structure FileMode where
  isDir : Bool
  perm : Nat
  deriving DecidableEq, Repr

/-- Go `os.FileInfo` (modification time and `Sys()` are left out). -/
structure FileInfo where
  Name : Str
  Size : Nat
  Mode : FileMode
  deriving DecidableEq, Repr

/-- Go `(os.FileInfo).IsDir()`. -/
def FileInfo.IsDir (fi : FileInfo) : Bool := fi.Mode.isDir

/-- Go `build.Context`: the fields `goFilesPackage` touches and the plain
configuration fields it copies along. -/
structure Context where
  GOARCH : Str
  GOOS : Str
  GOROOT : Str
  GOPATH : Str
  CgoEnabled : Bool
  UseAllFiles : Bool
  Compiler : Str
  BuildTags : List Str
  /-- Directory-listing hook; `none` is Go's nil (read the real directory). -/
  ReadDir : Option (Str → Except Error (List FileInfo))

/-- Go `build.Package`, reduced to a few descriptive fields. -/
structure Package where
  Dir : Str
  Name : Str
  GoFiles : List Str
  deriving DecidableEq, Repr

/-- Calls that `goFilesPackage` makes to the outside, in the order made. -/
inductive Event where
  | stat (name : Str)
  | getwd
  | importDir (ctx : Context) (dir : Str) (mode : Nat)

/-- Everything outside `goFilesPackage`: the filesystem as seen by `os.Stat`,
the working directory, the package-level `buildctx` and the resolver
`(*build.Context).ImportDir` (which may hand back a package together with an
error). -/
structure World where
  stat : Str → Except Error FileInfo
  getwd : Except Error Str
  buildctx : Context
  importDir : Context → Str → Nat → Option Package × Option Error

/-! ## goFilesPackage -/

/-- Second loop of `goFilesPackage` (`for _, file := range gofiles`), with the
loop variables `dirent` and `dir` and the calls made so far.  On a return
inside the loop the result is the returned error. -/
def statLoop (w : World) :
    List Str → List FileInfo → Str → List Event → Except Error (List FileInfo × Str) × List Event
  | [], dirent, dir, tr => (.ok (dirent, dir), tr)
  | file :: rest, dirent, dir, tr =>
    match w.stat file with
    | .error err => (.error err, tr ++ [Event.stat file])
    | .ok fi =>
      if fi.IsDir then
        (.error (Error.errorf (file ++ " is a directory, should be a Go file".toList)),
          tr ++ [Event.stat file])
      else
        let dir1 := (filepath.Split file).1
        let dir2 :=
          if dir = [] then dir1
          else if dir ≠ dir1 then
            -- fmt.Errorf(...) is evaluated here and its value dropped: no return
            dir
          else dir
        statLoop w rest (dirent ++ [fi]) dir2 (tr ++ [Event.stat file])

/-- Go `goFilesPackage(gofiles)`: the returned `(*build.Package, error)` and the
calls made. -/
def goFilesPackage (w : World) (gofiles : List Str) :
    (Option Package × Option Error) × List Event :=
  if gofiles.any (fun f => !HasSuffix f ".go".toList) then
    ((none, some (Error.errorf "named files must be .go files".toList)), [])
  else
    let buildctx1 : Context := { w.buildctx with UseAllFiles := true }
    match statLoop w gofiles [] [] [] with
    | (.error err, tr) => ((none, some err), tr)
    | (.ok (dirent, dir), tr) =>
      let buildctx2 : Context := { buildctx1 with ReadDir := some (fun _ => .ok dirent) }
      if filepath.IsAbs dir = false then
        match w.getwd with
        | .error err => ((none, some err), tr ++ [Event.getwd])
        | .ok cwd =>
          let dir3 := filepath.Join [cwd, dir]
          (w.importDir buildctx2 dir3 0, tr ++ [Event.getwd, Event.importDir buildctx2 dir3 0])
      else
        (w.importDir buildctx2 dir 0, tr ++ [Event.importDir buildctx2 dir 0])

/-! ## The filesystem as explicit state -/

/-- What an inode holds: a regular file, a directory, or a symbolic link, kept
with the directory entry that its target leads to. -/
inductive Node where
  | file (data : Str) (perm : Nat)
  | dir (perm : Nat)
  | symlink (target : Str)
  deriving DecidableEq, Repr

/-- State of the process environment that `moveFile` and
`translateGccgoExterns` act on.

* `entry path` is the directory entry that `path` leads to, before a symbolic
  link in its last element is followed; two spellings of one entry (`a` and
  `./a`) have the same value.
* `links e` is the inode number that the entry `e` is linked to; two entries
  with one number are hard links of one file; an entry without a number, or
  with a number outside the table, names nothing.
* `inodes` is the inode table, indexed by inode number.
* `umask`, what has been written to standard output, and what `log.Printf`
  has printed. -/
structure Sys where
  entry : Str → Str
  links : Str → Option Nat
  inodes : List Node
  umask : Nat
  stdout : Str
  log : List Str

/-- Directory update `links[e := v]`. -/
def setLink (links : Str → Option Nat) (e : Str) (v : Option Nat) : Str → Option Nat :=
  fun x => if x = e then v else links x

/-- The state with the inode `i` holding `nd`. -/
def setInode (s : Sys) (i : Nat) (nd : Node) : Sys := { s with inodes := s.inodes.set i nd }

/-- The state with the entry `e` gone. -/
def unlink (s : Sys) (e : Str) : Sys := { s with links := setLink s.links e none }

/-- The state with the entry `en` linked to the inode `i` and the entry `eo`
gone. -/
def relink (s : Sys) (eo en : Str) (i : Nat) : Sys :=
  { s with links := setLink (setLink s.links eo none) en (some i) }

/-- The inode contents that a directory entry is linked to. -/
def nodeAt (s : Sys) (e : Str) : Option Node :=
  match s.links e with
  | some i => s.inodes[i]?
  | none => none

/-- The target of the symbolic link at a directory entry, if it is one. -/
def linkTarget (s : Sys) (e : Str) : Option Str :=
  match nodeAt s e with
  | some (Node.symlink t) => some t
  | _ => none

/-- Following symbolic links from a directory entry, at most `n` of them; `none`
is the error `ELOOP`.  The entry reached is not a symbolic link; it may name
nothing (a dangling link). -/
def follow (s : Sys) : Nat → Str → Option Str
  | 0, _ => none
  | n + 1, e =>
    match linkTarget s e with
    | some t => follow s n t
    | none => some e

/-- The directory entry that `open(2)` and `stat(2)` reach from a path: symbolic
links are followed (40 deep, as on Linux). -/
def resolve (s : Sys) (path : Str) : Option Str := follow s 40 (s.entry path)

/-- What `lstat(2)` sees at a path: the entry itself, links not followed. -/
def lstatNode (s : Sys) (path : Str) : Option Node := nodeAt s (s.entry path)

/-- What `stat(2)` sees at a path: the file reached through symbolic links. -/
def statNode (s : Sys) (path : Str) : Option Node :=
  match resolve s path with
  | some e => nodeAt s e
  | none => none

/-- The inode number of the file that a path names, symbolic links followed.
Two paths name the same file when they have the same number. -/
def inoOf (s : Sys) (path : Str) : Option Nat :=
  match resolve s path with
  | some e =>
    match s.links e with
    | some i => if i < s.inodes.length then some i else none
    | none => none
  | none => none

/-- Whether an inode is a directory. -/
def Node.isDir : Node → Bool
  | Node.dir _ => true
  | _ => false

/-- Open file (`*os.File`): the name it was opened with and its inode. -/
structure File where
  name : Str
  ino : Nat
  deriving DecidableEq, Repr

/-- How an `io.Copy` goes wrong, if it does, and after how many bytes. -/
inductive CopyFault where
  | none
  | readFails (after : Nat)
  | writeFails (after : Nat)
  deriving DecidableEq, Repr

/-- Failures of system calls for reasons outside the tables (another device, a
directory that may not be written, a full disk, a closed pipe), one switch per
call that `moveFile` makes. -/
structure Faults where
  renameErr : Bool
  openErr : Bool
  createErr : Bool
  statErr : Bool
  chmodErr : Bool
  copyErr : CopyFault
  removeErr : Bool
  deriving DecidableEq, Repr

/-- Go `os.Rename(oldname, newname)`, that is `rename(2)`: it acts on the two
directory entries and follows no symbolic link in the last element.  The old
entry must exist.  When both entries are linked to the same file (the same
entry under two spellings, or two hard links) it succeeds and changes nothing,
whatever the switch says: the outside failures do not arise between two names
of one file.  A directory replaces only a directory (taken to be empty), and
nothing else replaces one.  Otherwise the new entry is linked to the file and
the old entry is gone. -/
def osRename (fault : Bool) (oldname newname : Str) (s : Sys) : Except Error Sys :=
  match s.links (s.entry oldname) with
  | none => .error (Error.pathError "rename".toList oldname)
  | some i =>
    match s.inodes[i]? with
    | none => .error (Error.pathError "rename".toList oldname)
    | some ndo =>
      if s.links (s.entry newname) = some i then .ok s
      else if fault then .error (Error.pathError "rename".toList oldname)
      else
        match nodeAt s (s.entry newname) with
        | some ndn =>
          if ndn.isDir = ndo.isDir then .ok (relink s (s.entry oldname) (s.entry newname) i)
          else .error (Error.pathError "rename".toList oldname)
        | none => .ok (relink s (s.entry oldname) (s.entry newname) i)

/-- Go `os.Open(name)`: symbolic links are followed. -/
def osOpen (fault : Bool) (name : Str) (s : Sys) : Except Error File :=
  if fault then .error (Error.pathError "open".toList name)
  else
    match resolve s name with
    | none => .error (Error.pathError "open".toList name)
    | some e =>
      match s.links e with
      | none => .error (Error.pathError "open".toList name)
      | some i =>
        match s.inodes[i]? with
        | none => .error (Error.pathError "open".toList name)
        | some _ => .ok { name := name, ino := i }

/-- A new, empty regular file with mode `perm` before umask, linked at the
entry `e`. -/
def newFile (name e : Str) (perm : Nat) (s : Sys) : File × Sys :=
  let inodes1 := s.inodes ++ [Node.file [] (perm - Nat.land perm s.umask)]
  let links1 := setLink s.links e (some s.inodes.length)
  ({ name := name, ino := s.inodes.length }, { s with inodes := inodes1, links := links1 })

/-- Go `os.Create(name)`: `O_RDWR|O_CREATE|O_TRUNC` with mode `0666` before
umask.  Symbolic links are followed; an existing file is truncated and keeps
its mode, under all its names. -/
def osCreate (fault : Bool) (name : Str) (s : Sys) : Except Error (File × Sys) :=
  if fault then .error (Error.pathError "open".toList name)
  else
    match resolve s name with
    | none => .error (Error.pathError "open".toList name)
    | some e =>
      match s.links e with
      | none => .ok (newFile name e 0o666 s)
      | some i =>
        match s.inodes[i]? with
        | none => .ok (newFile name e 0o666 s)
        | some (Node.file _ perm) =>
          .ok ({ name := name, ino := i }, setInode s i (Node.file [] perm))
        | some _ => .error (Error.pathError "open".toList name)

/-- Go `(*os.File).Stat()`. -/
def fileStat (fault : Bool) (f : File) (s : Sys) : Except Error FileInfo :=
  if fault then .error (Error.pathError "stat".toList f.name)
  else
    match s.inodes[f.ino]? with
    | some (Node.file data perm) =>
      .ok { Name := (filepath.Split f.name).2, Size := data.length,
            Mode := { isDir := false, perm := perm } }
    | some (Node.dir perm) =>
      .ok { Name := (filepath.Split f.name).2, Size := 0,
            Mode := { isDir := true, perm := perm } }
    | _ => .error (Error.pathError "stat".toList f.name)

/-- Go `(*os.File).Chmod(mode)`: sets the permission bits of the inode. -/
def fileChmod (fault : Bool) (f : File) (mode : FileMode) (s : Sys) : Except Error Sys :=
  if fault then .error (Error.pathError "chmod".toList f.name)
  else
    match s.inodes[f.ino]? with
    | some (Node.file data _) => .ok (setInode s f.ino (Node.file data mode.perm))
    | some (Node.dir _) => .ok (setInode s f.ino (Node.dir mode.perm))
    | _ => .error (Error.pathError "chmod".toList f.name)

/-- Bytes that an `io.Copy` reading `data` from `rname` into `wname` moves
before it stops, and the error it returns. -/
def copied (fault : CopyFault) (rname wname : Str) (data : Str) : Str × Option Error :=
  match fault with
  | CopyFault.none => (data, none)
  | CopyFault.readFails k => (data.take k, some (Error.pathError "read".toList rname))
  | CopyFault.writeFails k => (data.take k, some (Error.pathError "write".toList wname))

/-- Go `io.Copy(fout, fin)` between two files: reads what the inode of `fin`
holds now and writes it at the end of the inode of `fout`. -/
def ioCopyFile (fault : CopyFault) (fout fin : File) (s : Sys) : Option Error × Sys :=
  match s.inodes[fin.ino]? with
  | some (Node.file data _) =>
    let r := copied fault fin.name fout.name data
    match s.inodes[fout.ino]? with
    | some (Node.file cur perm) => (r.2, setInode s fout.ino (Node.file (cur ++ r.1) perm))
    | _ => (some (Error.pathError "write".toList fout.name), s)
  | _ => (some (Error.pathError "read".toList fin.name), s)

/-- Go `io.Copy(os.Stdout, fin)`. -/
def ioCopyStdout (fault : CopyFault) (fin : File) (s : Sys) : Option Error × Sys :=
  match s.inodes[fin.ino]? with
  | some (Node.file data _) =>
    let r := copied fault fin.name "/dev/stdout".toList data
    (r.2, { s with stdout := s.stdout ++ r.1 })
  | _ => (some (Error.pathError "read".toList fin.name), s)

/-- Go `os.Remove(name)`: the directory entry is unlinked; no symbolic link in
the last element is followed (a directory is taken to be empty). -/
def osRemove (fault : Bool) (name : Str) (s : Sys) : Option Error × Sys :=
  if fault then (some (Error.pathError "remove".toList name), s)
  else
    match nodeAt s (s.entry name) with
    | none => (some (Error.pathError "remove".toList name), s)
    | some _ => (none, unlink s (s.entry name))

/-- Go `log.Printf`: one more line on the logger. -/
def logPrintf (line : Str) (s : Sys) : Sys := { s with log := s.log ++ [line] }

/-! ## moveFile -/

/-- Go `moveFile(src, dst)`: the returned error and the state afterwards.
`printcommands` is the package-level flag of the command. -/
def moveFile (printcommands : Bool) (ft : Faults) (src dst : Str) (s0 : Sys) :
    Option Error × Sys :=
  let s :=
    if printcommands then
      if dst = ['-'] then logPrintf ("cat ".toList ++ src ++ ['\n']) s0
      else logPrintf ("mv ".toList ++ src ++ [' '] ++ dst ++ ['\n']) s0
    else s0
  if dst = ['-'] then
    match osOpen ft.openErr src s with
    | .error err => (some err, s)
    | .ok fin => ioCopyStdout ft.copyErr fin s
  else
    match osRename ft.renameErr src dst s with
    | .ok s1 => (none, s1)
    | .error _ =>
      -- rename may fail if the paths are on different filesystems.
      match osOpen ft.openErr src s with
      | .error err => (some err, s)
      | .ok fin =>
        match osCreate ft.createErr dst s with
        | .error err => (some err, s)
        | .ok (fout, s1) =>
          match fileStat ft.statErr fin s1 with
          | .error err => (some err, s1)
          | .ok info =>
            match fileChmod ft.chmodErr fout info.Mode s1 with
            | .error err => (some err, s1)
            | .ok s2 =>
              match ioCopyFile ft.copyErr fout fin s2 with
              | (some err, s3) => (some err, s3)
              | (none, s3) => osRemove ft.removeErr src s3

/-! ## translateGccgoExterns -/

/-- The literal of `gccgoExternRegexp`, `(?m)^//extern `. -/
def gccgoExternLiteral : Str := "//extern ".toList

/-- The replacement text. -/
def llgoName : Str := "// #llgo name: ".toList

/-- Whether `gccgoExternRegexp` matches at the current position: `prev` is the
character before it (`none` at the beginning of the text), `rest` the text from
it on.  In multi-line mode `^` holds at the beginning of the text and after a
newline. -/
def gccgoExternMatchAt (prev : Option Char) (rest : Str) : Bool :=
  (prev == none || prev == some '\n') && gccgoExternLiteral.isPrefixOf rest

/-- Scan of `gccgoExternRegexp.ReplaceAllLiteral(data, repl)`: leftmost
matches, one after the other; `skip` counts the characters of the current
match still to be passed over, unmatched characters are copied. -/
def replaceScan (repl : Str) : Option Char → Nat → Str → Str
  | _, _, [] => []
  | _, skip + 1, c :: cs => replaceScan repl (some c) skip cs
  | prev, 0, c :: cs =>
    if gccgoExternMatchAt prev (c :: cs) then
      repl ++ replaceScan repl (some c) (gccgoExternLiteral.length - 1) cs
    else c :: replaceScan repl (some c) 0 cs

/-- Go `gccgoExternRegexp.ReplaceAllLiteral(data, repl)`. -/
def ReplaceAllLiteral (data repl : Str) : Str := replaceScan repl none 0 data

/-- How `ioutil.WriteFile` goes wrong, if it does. -/
inductive WriteFault where
  | none
  | openFails
  | shortWrite (after : Nat)
  deriving DecidableEq, Repr

/-- Go `ioutil.ReadFile(filename)`: symbolic links are followed. -/
def ReadFile (fault : Bool) (filename : Str) (s : Sys) : Except Error Str :=
  if fault then .error (Error.pathError "read".toList filename)
  else
    match statNode s filename with
    | some (Node.file data _) => .ok data
    | some _ => .error (Error.pathError "read".toList filename)
    | none => .error (Error.pathError "open".toList filename)

/-- The bytes that a write puts into the file, and the error it returns. -/
def written (fault : WriteFault) (filename : Str) (data : Str) : Str × Option Error :=
  match fault with
  | WriteFault.shortWrite k => (data.take k, some (Error.pathError "write".toList filename))
  | _ => (data, none)

/-- Go `ioutil.WriteFile(filename, data, perm)`: `O_WRONLY|O_CREATE|O_TRUNC`;
symbolic links are followed; `perm` (before umask) is used only when the file
is created. -/
def WriteFile (fault : WriteFault) (filename : Str) (data : Str) (perm : Nat) (s : Sys) :
    Option Error × Sys :=
  if fault = WriteFault.openFails then (some (Error.pathError "open".toList filename), s)
  else
    let w := written fault filename data
    match resolve s filename with
    | none => (some (Error.pathError "open".toList filename), s)
    | some e =>
      let inodes0 := s.inodes ++ [Node.file w.1 (perm - Nat.land perm s.umask)]
      let links0 := setLink s.links e (some s.inodes.length)
      match s.links e with
      | none => (w.2, { s with inodes := inodes0, links := links0 })
      | some i =>
        match s.inodes[i]? with
        | none => (w.2, { s with inodes := inodes0, links := links0 })
        | some (Node.file _ p) => (w.2, setInode s i (Node.file w.1 p))
        | some _ => (some (Error.pathError "open".toList filename), s)

/-- Go `translateGccgoExterns(filename)`. -/
def translateGccgoExterns (readErr : Bool) (writeErr : WriteFault) (filename : Str)
    (s : Sys) : Option Error × Sys :=
  match ReadFile readErr filename s with
  | .error err => (some err, s)
  | .ok data =>
    let data1 := ReplaceAllLiteral data llgoName
    WriteFile writeErr filename data1 0o644 s

/-! ## findGcclib -/

/-- Go `exec.Cmd`, reduced to the program and its arguments. -/
structure Cmd where
  name : Str
  args : List Str
  deriving DecidableEq, Repr

/-- Go `findGcclib()`.  `runCmd` is the command runner of the package: it
returns the error of the run and what the command wrote to `cmd.Stdout`. -/
def findGcclib (runCmd : Cmd → Option Error × Str) : Str × Option Error :=
  let cmd : Cmd := { name := "gcc".toList, args := ["--print-libgcc-file-name".toList] }
  match runCmd cmd with
  | (some err, _) => ([], some err)
  | (none, buf) =>
    let libfile := buf
    (filepath.Dir libfile, none)

/-! ## envFields -/

/-- Go `os.Getenv(key)`: the empty string when the variable is unset. -/
def Getenv (env : Str → Option Str) (key : Str) : Str := (env key).getD []

/-- Go `envFields(key)`. -/
def envFields (env : Str → Option Str) (key : Str) : List Str :=
  Fields (Getenv env key)

/-! ## Sample inputs -/

/-- Sample world: every path names a regular file, the working directory is
`/work`, and the resolver accepts any directory, reporting the listing it was
given. -/
def sampleWorld : World where
  stat := fun f =>
    .ok { Name := (filepath.Split f).2, Size := 0, Mode := { isDir := false, perm := 0o644 } }
  getwd := .ok "/work".toList
  buildctx :=
    { GOARCH := "amd64".toList, GOOS := "linux".toList, GOROOT := "/go".toList,
      GOPATH := [], CgoEnabled := false, UseAllFiles := false, Compiler := "gc".toList,
      BuildTags := [], ReadDir := none }
  importDir := fun ctx dir _ =>
    match ctx.ReadDir with
    | some rd =>
      match rd dir with
      | .ok infos =>
        (some { Dir := dir, Name := "main".toList, GoFiles := infos.map (·.Name) }, none)
      | .error err => (none, some err)
    | none => (none, some (Error.external 1))

/-- Sample resolution of paths: relative to the working directory `/work`,
lexically cleaned. -/
def sampleEntry (p : Str) : Str :=
  if filepath.IsAbs p then filepath.Clean p else filepath.Join ["/work".toList, p]

/-- Sample state: the regular file `/work/a`, mode 0755, contents `hi`, with a
hard link `/work/h`; and the symbolic link `/work/e/l` to `/work/a`. -/
def sampleSys : Sys where
  entry := sampleEntry
  links := fun e =>
    if e = "/work/a".toList ∨ e = "/work/h".toList then some 0
    else if e = "/work/e/l".toList then some 1
    else none
  inodes := [Node.file "hi".toList 0o755, Node.symlink "/work/a".toList]
  umask := 0o022
  stdout := []
  log := []

/-- No call fails for an outside reason. -/
def noFaults : Faults where
  renameErr := false
  openErr := false
  createErr := false
  statErr := false
  chmodErr := false
  copyErr := CopyFault.none
  removeErr := false

/-- The rename fails (say, the paths are on two devices); nothing else does. -/
def renameFails : Faults := { noFaults with renameErr := true }

/-- The rename and the final remove fail (say, the directory of the source may
not be written); nothing else does. -/
def renameRemoveFail : Faults := { noFaults with renameErr := true, removeErr := true }

/-- Writing to the destination fails at once (say, a closed pipe). -/
def writeFails : Faults := { noFaults with copyErr := CopyFault.writeFails 0 }

/-! ## Line-wise reading of the extern rewrite (specification side) -/

/-- The lines of a text: Go `strings.Split(s, "\n")`. -/
def splitLines : Str → List Str
  | [] => [[]]
  | c :: cs =>
    if c = '\n' then [] :: splitLines cs
    else
      match splitLines cs with
      | l :: ls => (c :: l) :: ls
      | [] => [[c]]

/-- Lines put back together with a newline between them. -/
def joinLines (ls : List Str) : Str := stringsJoin ls ['\n']

/-- What the rewrite does to one line: a leading `//extern ` becomes
`// #llgo name: ` and the rest of the line is kept; any other line is kept
whole. -/
def rewriteLine (l : Str) : Str :=
  if HasPrefix l gccgoExternLiteral then llgoName ++ l.drop gccgoExternLiteral.length else l

/-- The rewrite described line by line. -/
def rewriteLines (data : Str) : Str := joinLines ((splitLines data).map rewriteLine)

/-- Sample state: the single file `/work/x.go`, mode 0600, with an extern line
between two other lines. -/
def sampleSource : Sys where
  entry := sampleEntry
  links := fun e => if e = "/work/x.go".toList then some 0 else none
  inodes := [Node.file "package p\n//extern foo\nfunc f()".toList 0o600]
  umask := 0o022
  stdout := []
  log := []

/-! ## Whitespace-delimited tokens (specification side) -/

/-- The relation `FieldsOf s toks`: `toks` are the maximal whitespace-free
substrings of `s`, from left to right.  Either `s` is all whitespace and there
is no token, or `s` is whitespace, then a non-empty whitespace-free token that
runs up to the end of `s` or to a whitespace character, then a text whose
tokens are the remaining ones. -/
inductive FieldsOf : Str → List Str → Prop where
  | blank (ws : Str) (hws : ∀ c ∈ ws, isSpace c = true) : FieldsOf ws []
  | token (ws t rest : Str) (toks : List Str)
      (hws : ∀ c ∈ ws, isSpace c = true)
      (hne : t ≠ [])
      (ht : ∀ c ∈ t, isSpace c = false)
      (hrest : rest = [] ∨ ∃ c cs, rest = c :: cs ∧ isSpace c = true)
      (htail : FieldsOf rest toks) : FieldsOf (ws ++ t ++ rest) (t :: toks)

/-- What `strings.FieldsFunc` returns from a loop state: the flush after the
loop. -/
def fieldsFinish (st : FieldsState) : List Str :=
  match st.cur with
  | some fld => st.done ++ [fld]
  | none => st.done

/-- The command that `findGcclib` runs. -/
def gccCmd : Cmd := { name := "gcc".toList, args := ["--print-libgcc-file-name".toList] }

/-- Sample runner: `gcc` succeeds and prints the path of `libgcc.a` followed by
a newline. -/
def sampleRunner : Cmd → Option Error × Str :=
  fun _ => (none, "/usr/lib/gcc/x86_64-linux-gnu/9/libgcc.a\n".toList)

/-- Sample runner: `gcc` succeeds and prints a path directly under the root. -/
def rootRunner : Cmd → Option Error × Str :=
  fun _ => (none, "/libgcc.a".toList)

/-! ## The fallback of moveFile, step by step (proof side) -/

/-- The state `s` in the course of the fallback of `moveFile` begun in `s0`:
the source entry `eo` is linked to the inode `i`, a regular file holding `data`
with mode `perm`; the destination resolves to the entry `ef`, linked to another
inode `j`, a regular file holding `cur` with mode `p`; paths resolve and links
point as in `s0`. -/
structure Staged (s0 s : Sys) (eo ef : Str) (i j : Nat) (data : Str) (perm : Nat)
    (cur : Str) (p : Nat) : Prop where
  entry_eq : s.entry = s0.entry
  src_link : s.links eo = some i
  src_node : s.inodes[i]? = some (Node.file data perm)
  dst_link : s.links ef = some j
  dst_node : s.inodes[j]? = some (Node.file cur p)
  ne : j ≠ i
  links_eq : ∀ e, linkTarget s e = linkTarget s0 e


/-! ## Theorems: goFilesPackage -/

/-- A path without the `.go` suffix makes the first loop return. -/
theorem any_not_go (gofiles : List Str)
    (h : ∃ f ∈ gofiles, HasSuffix f ".go".toList = false) :
    gofiles.any (fun f => !HasSuffix f ".go".toList) = true := by
  obtain ⟨f, hf, hs⟩ := h
  exact List.any_eq_true.mpr ⟨f, hf, by rw [hs]; rfl⟩

/-- When every path has the suffix the first loop falls through. -/
theorem any_go (gofiles : List Str)
    (h : ∀ f ∈ gofiles, HasSuffix f ".go".toList = true) :
    gofiles.any (fun f => !HasSuffix f ".go".toList) = false := by
  rw [List.any_eq_false]
  intro f hf
  rw [h f hf]; simp

/-- The second loop over regular files of one directory `d`: it returns the
stat records in order, the directory `d`, and has called `os.Stat` once per
path. -/
theorem statLoop_regular (w : World) (d : Str) :
    ∀ (files : List Str) (dirent : List FileInfo) (dir : Str) (tr : List Event),
      (∀ f ∈ files, ∃ fi, w.stat f = .ok fi ∧ fi.IsDir = false) →
      (∀ f ∈ files, (filepath.Split f).1 = d) →
      (dir = [] ∨ dir = d) →
      ∃ infos : List FileInfo,
        files.map w.stat = infos.map Except.ok ∧
        statLoop w files dirent dir tr =
          (.ok (dirent ++ infos, if files = [] then dir else d), tr ++ files.map Event.stat) := by
  intro files
  induction files with
  | nil =>
    intro dirent dir tr _ _ _
    exact ⟨[], rfl, by simp [statLoop]⟩
  | cons f rest ih =>
    intro dirent dir tr hreg hdir hd
    obtain ⟨fi, hfi, hnd⟩ := hreg f (List.mem_cons_self _ _)
    have hsplit : (filepath.Split f).1 = d := hdir f (List.mem_cons_self _ _)
    have hdir2 : (if dir = [] then (filepath.Split f).1
        else if dir ≠ (filepath.Split f).1 then dir else dir) = d := by
      rcases hd with h | h
      · simp [h, hsplit]
      · by_cases h0 : dir = []
        · simp [h0, hsplit]
        · simp [h0, h, hsplit]
    obtain ⟨infos, hmap, hloop⟩ := ih (dirent ++ [fi]) d (tr ++ [Event.stat f])
      (fun g hg => hreg g (List.mem_cons_of_mem _ hg))
      (fun g hg => hdir g (List.mem_cons_of_mem _ hg)) (Or.inr rfl)
    refine ⟨fi :: infos, by simp [hfi, hmap], ?_⟩
    simp only [statLoop, hfi, hnd, hdir2, hloop]
    simp

/-- C2: a list with a path that does not end in `.go` makes `goFilesPackage`
return a nil package and the error "named files must be .go files" without
any call to `os.Stat`, `os.Getwd` or the resolver, wherever the path stands in
the list. -/
theorem goFilesPackage_non_go_suffix (w : World) (gofiles : List Str)
    (h : ∃ f ∈ gofiles, HasSuffix f ".go".toList = false) :
    goFilesPackage w gofiles =
      ((none, some (Error.errorf "named files must be .go files".toList)), []) := by
  unfold goFilesPackage
  rw [if_pos (any_not_go gofiles h)]

/-- C3: for a non-empty list of `.go` paths naming regular files of one
directory `d`, `goFilesPackage` stats each path once in order, asks for the
working directory only when `d` is relative, and calls the resolver once, with
a context whose `ReadDir` returns the stat records of the input paths in input
order whatever its argument, with `UseAllFiles` true, and with `d` itself when
`d` is absolute and `filepath.Join(cwd, d)` otherwise; it returns what the
resolver returns. -/
theorem goFilesPackage_same_dir (w : World) (gofiles : List Str) (d cwd : Str)
    (hne : gofiles ≠ [])
    (hgo : ∀ f ∈ gofiles, HasSuffix f ".go".toList = true)
    (hreg : ∀ f ∈ gofiles, ∃ fi, w.stat f = .ok fi ∧ fi.IsDir = false)
    (hdir : ∀ f ∈ gofiles, (filepath.Split f).1 = d)
    (hcwd : filepath.IsAbs d = false → w.getwd = .ok cwd) :
    ∃ (infos : List FileInfo) (ctx : Context),
      gofiles.map w.stat = infos.map Except.ok ∧
      ctx = { w.buildctx with UseAllFiles := true, ReadDir := some (fun _ => .ok infos) } ∧
      ctx.UseAllFiles = true ∧
      (∃ rd, ctx.ReadDir = some rd ∧ ∀ arg, rd arg = .ok infos) ∧
      (goFilesPackage w gofiles).1 =
        w.importDir ctx (if filepath.IsAbs d then d else filepath.Join [cwd, d]) 0 ∧
      (goFilesPackage w gofiles).2 =
        gofiles.map Event.stat ++ (if filepath.IsAbs d then [] else [Event.getwd]) ++
          [Event.importDir ctx (if filepath.IsAbs d then d else filepath.Join [cwd, d]) 0] := by
  obtain ⟨infos, hmap, hloop⟩ := statLoop_regular w d gofiles [] [] [] hreg hdir (Or.inl rfl)
  refine ⟨infos, _, hmap, rfl, rfl, ⟨_, rfl, fun _ => rfl⟩, ?_⟩
  unfold goFilesPackage
  rw [if_neg (by rw [any_go gofiles hgo]; exact Bool.false_ne_true), hloop]
  simp only [if_neg hne, List.nil_append]
  cases habs : filepath.IsAbs d with
  | true => simp
  | false => simp [hcwd habs]

/-- When the directory is relative and `os.Getwd` fails, `goFilesPackage`
returns that error after the stats, and the resolver is not called. -/
theorem goFilesPackage_getwd_error (w : World) (gofiles : List Str) (d : Str) (err : Error)
    (hne : gofiles ≠ [])
    (hgo : ∀ f ∈ gofiles, HasSuffix f ".go".toList = true)
    (hreg : ∀ f ∈ gofiles, ∃ fi, w.stat f = .ok fi ∧ fi.IsDir = false)
    (hdir : ∀ f ∈ gofiles, (filepath.Split f).1 = d)
    (hrel : filepath.IsAbs d = false)
    (hcwd : w.getwd = .error err) :
    goFilesPackage w gofiles = ((none, some err), gofiles.map Event.stat ++ [Event.getwd]) := by
  obtain ⟨infos, _, hloop⟩ := statLoop_regular w d gofiles [] [] [] hreg hdir (Or.inl rfl)
  unfold goFilesPackage
  rw [if_neg (by rw [any_go gofiles hgo]; exact Bool.false_ne_true), hloop]
  simp [if_neg hne, hrel, hcwd]

/-- Witness for `goFilesPackage_non_go_suffix`: `b.c` after a `.go` path. -/
theorem goFilesPackage_non_go_suffix_witness :
    goFilesPackage sampleWorld ["a.go".toList, "b.c".toList] =
      ((none, some (Error.errorf "named files must be .go files".toList)), []) :=
  goFilesPackage_non_go_suffix sampleWorld ["a.go".toList, "b.c".toList]
    ⟨"b.c".toList, by decide, by decide⟩

/-- Witness for `goFilesPackage_same_dir`: two files of the relative directory
`pkg/`, resolved from `/work`. -/
theorem goFilesPackage_same_dir_witness :
    ∃ (infos : List FileInfo) (ctx : Context),
      ["pkg/a.go".toList, "pkg/b.go".toList].map sampleWorld.stat = infos.map Except.ok ∧
      ctx = { sampleWorld.buildctx with
                UseAllFiles := true, ReadDir := some (fun _ => .ok infos) } ∧
      ctx.UseAllFiles = true ∧
      (∃ rd, ctx.ReadDir = some rd ∧ ∀ arg, rd arg = .ok infos) ∧
      (goFilesPackage sampleWorld ["pkg/a.go".toList, "pkg/b.go".toList]).1 =
        sampleWorld.importDir ctx
          (if filepath.IsAbs "pkg/".toList then "pkg/".toList
           else filepath.Join ["/work".toList, "pkg/".toList]) 0 ∧
      (goFilesPackage sampleWorld ["pkg/a.go".toList, "pkg/b.go".toList]).2 =
        ["pkg/a.go".toList, "pkg/b.go".toList].map Event.stat ++
          (if filepath.IsAbs "pkg/".toList then [] else [Event.getwd]) ++
          [Event.importDir ctx
            (if filepath.IsAbs "pkg/".toList then "pkg/".toList
             else filepath.Join ["/work".toList, "pkg/".toList]) 0] :=
  goFilesPackage_same_dir sampleWorld ["pkg/a.go".toList, "pkg/b.go".toList]
    "pkg/".toList "/work".toList (by decide) (by decide)
    (fun f _ => ⟨_, rfl, rfl⟩) (by decide) (fun _ => rfl)

/-- C1 (evaluation at the failing inputs): with `a/x.go` and `b/y.go`, two
regular files of different directories, `goFilesPackage` returns a package and
a nil error after calling the resolver on `/work/a` with both files listed;
with the bare name `x.go` first, the resolver is called on `/work/b`. -/
theorem goFilesPackage_two_dirs_no_error :
    goFilesPackage sampleWorld ["a/x.go".toList, "b/y.go".toList] =
      ((some { Dir := "/work/a".toList, Name := "main".toList,
               GoFiles := ["x.go".toList, "y.go".toList] }, none),
        [Event.stat "a/x.go".toList, Event.stat "b/y.go".toList, Event.getwd,
          Event.importDir
            { sampleWorld.buildctx with
                UseAllFiles := true,
                ReadDir := some (fun _ => .ok
                  [{ Name := "x.go".toList, Size := 0, Mode := { isDir := false, perm := 0o644 } },
                   { Name := "y.go".toList, Size := 0, Mode := { isDir := false, perm := 0o644 } }]) }
            "/work/a".toList 0]) ∧
    (goFilesPackage sampleWorld ["x.go".toList, "b/y.go".toList]).1 =
      (some { Dir := "/work/b".toList, Name := "main".toList,
              GoFiles := ["x.go".toList, "y.go".toList] }, none) := by
  constructor
  · rfl
  · rfl

/-! ## Theorems: moveFile -/

/-- Following links depends on the state only through the targets of the
symbolic links. -/
theorem follow_congr (s s1 : Sys)
    (hlink : ∀ e, linkTarget s1 e = linkTarget s e) :
    ∀ (n : Nat) (e : Str), follow s1 n e = follow s n e := by
  intro n
  induction n with
  | zero => intro e; rfl
  | succ n ih =>
    intro e
    simp only [follow, hlink]
    cases linkTarget s e with
    | none => rfl
    | some t => exact ih _

/-- The same for the resolution of a path. -/
theorem resolve_congr (s s1 : Sys) (hentry : s1.entry = s.entry)
    (hlink : ∀ e, linkTarget s1 e = linkTarget s e) (path : Str) :
    resolve s1 path = resolve s path := by
  unfold resolve
  rw [hentry]
  exact follow_congr s s1 hlink _ _

/-- Writing a regular file into an inode that is not a symbolic link changes
the target of no link. -/
theorem linkTarget_set_file (s : Sys) (j : Nat) (c : Str) (p : Nat)
    (hj : ∀ t, s.inodes[j]? ≠ some (Node.symlink t)) (e : Str) :
    linkTarget (setInode s j (Node.file c p)) e = linkTarget s e := by
  simp only [linkTarget, nodeAt, setInode]
  cases h : s.links e with
  | none => rfl
  | some k =>
    simp only
    by_cases hk : j = k
    · subst hk
      cases hn : s.inodes[j]? with
      | none =>
        have hlen : s.inodes.length ≤ j := List.getElem?_eq_none_iff.mp hn
        rw [List.getElem?_eq_none (by simpa using hlen)]
      | some nd =>
        have hlt : j < s.inodes.length := by
          rcases List.getElem?_eq_some_iff.mp hn with ⟨h, _⟩
          exact h
        rw [List.getElem?_set_self hlt]
        cases nd with
        | file d q => rfl
        | dir q => rfl
        | symlink t => exact absurd hn (hj t)
    · rw [List.getElem?_set_ne hk]

/-- Unlinking an entry that is not a symbolic link changes the target of no
link. -/
theorem linkTarget_unlink (s : Sys) (eo : Str) (ho : linkTarget s eo = none) (e : Str) :
    linkTarget (unlink s eo) e = linkTarget s e := by
  by_cases he : e = eo
  · subst he
    rw [ho]
    simp [linkTarget, nodeAt, setLink, unlink]
  · simp [linkTarget, nodeAt, setLink, unlink, he]

/-- Creating a regular file at an entry that named nothing changes the target
of no link. -/
theorem linkTarget_newFile (s : Sys) (name ef : Str) (perm : Nat) (hf : nodeAt s ef = none)
    (e : Str) :
    linkTarget (newFile name ef perm s).2 e = linkTarget s e := by
  have hset : ∀ k : Nat, ∀ nd : Node,
      (match (s.inodes ++ [nd])[k]? with
        | some (Node.symlink t) => some t
        | _ => none) =
      (match s.inodes[k]? with
        | some (Node.symlink t) => some t
        | _ => none) ∨ k = s.inodes.length := by
    intro k nd
    by_cases hk : k < s.inodes.length
    · left; rw [List.getElem?_append_left hk]
    · by_cases hk2 : k = s.inodes.length
      · right; exact hk2
      · left
        have h1 : s.inodes.length + 1 ≤ k := by omega
        rw [List.getElem?_eq_none (by simpa using h1), List.getElem?_eq_none (by omega)]
  by_cases he : e = ef
  · subst he
    have h0 : linkTarget s e = none := by simp [linkTarget, hf]
    rw [h0]
    simp [linkTarget, nodeAt, newFile, setLink]
  · simp only [linkTarget, nodeAt, newFile, setLink, he, if_false]
    cases hl : s.links e with
    | none => rfl
    | some k =>
      simp only
      rcases hset k (Node.file [] (perm - Nat.land perm s.umask)) with h | h
      · exact h
      · subst h
        rw [List.getElem?_concat_length, List.getElem?_eq_none (Nat.le_refl _)]

/-- An entry linked to a regular file is not a symbolic link, and a path to it
resolves to it. -/
theorem resolve_regular (s : Sys) (path : Str) (i : Nat) (data : Str) (perm : Nat)
    (hl : s.links (s.entry path) = some i)
    (hn : s.inodes[i]? = some (Node.file data perm)) :
    linkTarget s (s.entry path) = none ∧ resolve s path = some (s.entry path) ∧
      inoOf s path = some i := by
  have h1 : linkTarget s (s.entry path) = none := by
    simp [linkTarget, nodeAt, hl, hn]
  have h2 : resolve s path = some (s.entry path) := by
    simp [resolve, follow, h1]
  have hlt : i < s.inodes.length := by
    rcases List.getElem?_eq_some_iff.mp hn with ⟨h, _⟩
    exact h
  exact ⟨h1, h2, by simp [inoOf, h2, hl, hlt]⟩

/-- What `lstat` sees of a regular file, unfolded. -/
theorem lstatNode_file (s : Sys) (path : Str) (data : Str) (perm : Nat)
    (h : lstatNode s path = some (Node.file data perm)) :
    ∃ i, s.links (s.entry path) = some i ∧ s.inodes[i]? = some (Node.file data perm) := by
  unfold lstatNode nodeAt at h
  cases hl : s.links (s.entry path) with
  | none => rw [hl] at h; exact absurd h (by simp)
  | some i => rw [hl] at h; exact ⟨i, rfl, h⟩

/-- `os.Open` of the source: it fails by the switch only. -/
theorem osOpen_regular (fault : Bool) (s : Sys) (path : Str) (i : Nat) (data : Str) (perm : Nat)
    (hl : s.links (s.entry path) = some i)
    (hn : s.inodes[i]? = some (Node.file data perm)) :
    osOpen fault path s =
      if fault then .error (Error.pathError "open".toList path)
      else .ok { name := path, ino := i } := by
  have h := (resolve_regular s path i data perm hl hn).2.1
  cases fault <;> simp [osOpen, h, hl, hn]

/-- `os.Rename` of a regular file onto an entry that is not a name of it: an
error, or the new entry is linked to the file and the old one is gone. -/
theorem osRename_regular (fault : Bool) (s : Sys) (src dst : Str) (i : Nat) (data : Str)
    (perm : Nat)
    (hl : s.links (s.entry src) = some i)
    (hn : s.inodes[i]? = some (Node.file data perm))
    (hnot : s.links (s.entry dst) ≠ some i) :
    (∃ err, osRename fault src dst s = .error err) ∨
    osRename fault src dst s = .ok (relink s (s.entry src) (s.entry dst) i) := by
  cases fault with
  | true => left; simp [osRename, hl, hn, hnot]
  | false =>
    cases hd : nodeAt s (s.entry dst) with
    | none => right; simp [osRename, hl, hn, hnot, hd]
    | some nd =>
      cases nd with
      | file d q => right; simp [osRename, hl, hn, hnot, hd, Node.isDir]
      | dir q => left; simp [osRename, hl, hn, hnot, hd, Node.isDir]
      | symlink t => right; simp [osRename, hl, hn, hnot, hd, Node.isDir]

/-- After such a rename the file is at the destination and nothing is at the
source. -/
theorem renamed_spec (s : Sys) (src dst : Str) (i : Nat) (data : Str) (perm : Nat)
    (hl : s.links (s.entry src) = some i)
    (hn : s.inodes[i]? = some (Node.file data perm))
    (hnot : s.links (s.entry dst) ≠ some i) :
    statNode (relink s (s.entry src) (s.entry dst) i) dst = some (Node.file data perm) ∧
    lstatNode (relink s (s.entry src) (s.entry dst) i) src = none := by
  have hne : s.entry src ≠ s.entry dst := by
    intro h; rw [h] at hl; exact hnot hl
  constructor
  · have hl2 : (relink s (s.entry src) (s.entry dst) i).links
        ((relink s (s.entry src) (s.entry dst) i).entry dst) = some i := by
      simp [relink, setLink]
    have h := (resolve_regular (relink s (s.entry src) (s.entry dst) i) dst i data perm
        hl2 hn).2.1
    simp only [statNode, h]
    simp [nodeAt, setLink, relink, hn]
  · simp [lstatNode, nodeAt, setLink, relink, hne]

/-- Writing into the destination inode keeps the fallback in order. -/
theorem staged_set (s0 s : Sys) (eo ef : Str) (i j : Nat) (data : Str) (perm : Nat)
    (cur : Str) (p : Nat) (c1 : Str) (p1 : Nat)
    (h : Staged s0 s eo ef i j data perm cur p) :
    Staged s0 (setInode s j (Node.file c1 p1)) eo ef i j data perm c1 p1 := by
  have hlt : j < s.inodes.length := by
    rcases List.getElem?_eq_some_iff.mp h.dst_node with ⟨hj, _⟩
    exact hj
  refine ⟨h.entry_eq, h.src_link, ?_, h.dst_link, ?_, h.ne, ?_⟩
  · simp only [setInode]
    rw [List.getElem?_set_ne h.ne]
    exact h.src_node
  · simp only [setInode]
    rw [List.getElem?_set_self hlt]
  · intro e
    rw [linkTarget_set_file s j c1 p1 (by rw [h.dst_node]; simp) e]
    exact h.links_eq e

/-- `os.Create` of a destination that does not name the source file: an
error, or the fallback is staged with an empty destination. -/
theorem osCreate_staged (fault : Bool) (s : Sys) (dst eo : Str) (i : Nat) (data : Str)
    (perm : Nat)
    (hl : s.links eo = some i)
    (hn : s.inodes[i]? = some (Node.file data perm))
    (hdiff : inoOf s dst ≠ some i) :
    (∃ err, osCreate fault dst s = .error err) ∨
    (∃ (ef : Str) (j p : Nat) (s1 : Sys),
      osCreate fault dst s = .ok ({ name := dst, ino := j }, s1) ∧
      resolve s dst = some ef ∧
      Staged s s1 eo ef i j data perm [] p) := by
  have hlt : i < s.inodes.length := by
    rcases List.getElem?_eq_some_iff.mp hn with ⟨h, _⟩
    exact h
  cases fault with
  | true => left; simp [osCreate]
  | false =>
    cases hr : resolve s dst with
    | none => left; simp [osCreate, hr]
    | some ef =>
      have hnew : nodeAt s ef = none →
          Staged s (newFile dst ef 0o666 s).2 eo ef i s.inodes.length data perm []
            (0o666 - Nat.land 0o666 s.umask) := by
        intro hf
        have hne : eo ≠ ef := by
          intro e
          rw [← e] at hf
          simp [nodeAt, hl, hn] at hf
        refine ⟨rfl, ?_, ?_, ?_, ?_, Nat.ne_of_gt hlt, linkTarget_newFile s dst ef _ hf⟩
        · simp [newFile, setLink, hne, hl]
        · simp only [newFile]
          rw [List.getElem?_append_left hlt]
          exact hn
        · simp [newFile, setLink]
        · simp only [newFile]
          rw [List.getElem?_concat_length]
      cases hle : s.links ef with
      | none =>
        right
        refine ⟨ef, s.inodes.length, _, (newFile dst ef 0o666 s).2, ?_, rfl,
          hnew (by simp [nodeAt, hle])⟩
        simp [osCreate, hr, hle, newFile]
      | some j =>
        cases hnj : s.inodes[j]? with
        | none =>
          right
          refine ⟨ef, s.inodes.length, _, (newFile dst ef 0o666 s).2, ?_, rfl,
            hnew (by simp [nodeAt, hle, hnj])⟩
          simp [osCreate, hr, hle, hnj, newFile]
        | some nd =>
          have hjlt : j < s.inodes.length := by
            rcases List.getElem?_eq_some_iff.mp hnj with ⟨h, _⟩
            exact h
          have hji : j ≠ i := by
            intro e
            apply hdiff
            simp [inoOf, hr, hle, e, hlt]
          cases nd with
          | file d q =>
            right
            refine ⟨ef, j, q, setInode s j (Node.file [] q), ?_, rfl, ?_⟩
            · simp [osCreate, hr, hle, hnj]
            · refine ⟨rfl, hl, ?_, hle, ?_, hji, ?_⟩
              · simp only [setInode]
                rw [List.getElem?_set_ne hji]
                exact hn
              · simp only [setInode]
                rw [List.getElem?_set_self hjlt]
              · intro e
                exact linkTarget_set_file s j [] q (by rw [hnj]; simp) e
          | dir q => left; simp [osCreate, hr, hle, hnj]
          | symlink t => left; simp [osCreate, hr, hle, hnj]

/-- `Stat` on the open source in the fallback. -/
theorem fileStat_staged (fault : Bool) (s0 s : Sys) (src : Str) (eo ef : Str) (i j : Nat)
    (data : Str) (perm : Nat) (cur : Str) (p : Nat)
    (h : Staged s0 s eo ef i j data perm cur p) :
    fileStat fault { name := src, ino := i } s =
      if fault then .error (Error.pathError "stat".toList src)
      else .ok { Name := (filepath.Split src).2, Size := data.length,
                 Mode := { isDir := false, perm := perm } } := by
  cases fault <;> simp [fileStat, h.src_node]

/-- `Chmod` on the open destination in the fallback. -/
theorem fileChmod_staged (fault : Bool) (mode : FileMode) (s0 s : Sys) (dst : Str)
    (eo ef : Str) (i j : Nat) (data : Str) (perm : Nat) (cur : Str) (p : Nat)
    (h : Staged s0 s eo ef i j data perm cur p) :
    fileChmod fault { name := dst, ino := j } mode s =
      if fault then .error (Error.pathError "chmod".toList dst)
      else .ok (setInode s j (Node.file cur mode.perm)) := by
  cases fault <;> simp [fileChmod, h.dst_node]

/-- `io.Copy` from the open source to the open destination in the fallback. -/
theorem ioCopyFile_staged (fault : CopyFault) (s0 s : Sys) (src dst : Str)
    (eo ef : Str) (i j : Nat) (data : Str) (perm : Nat) (cur : Str) (p : Nat)
    (h : Staged s0 s eo ef i j data perm cur p) :
    ioCopyFile fault { name := dst, ino := j } { name := src, ino := i } s =
      ((copied fault src dst data).2,
        setInode s j (Node.file (cur ++ (copied fault src dst data).1) p)) := by
  simp [ioCopyFile, h.src_node, h.dst_node]

/-- `os.Remove` of the source in the fallback. -/
theorem osRemove_staged (fault : Bool) (s0 s : Sys) (src : Str) (ef : Str) (i j : Nat)
    (data : Str) (perm : Nat) (cur : Str) (p : Nat)
    (h : Staged s0 s (s0.entry src) ef i j data perm cur p) :
    osRemove fault src s =
      if fault then (some (Error.pathError "remove".toList src), s)
      else (none, unlink s (s0.entry src)) := by
  cases fault <;> simp [osRemove, nodeAt, h.entry_eq, h.src_link, h.src_node]

/-- In the course of the fallback the source is as it was. -/
theorem staged_source (s0 s : Sys) (src : Str) (ef : Str) (i j : Nat)
    (data : Str) (perm : Nat) (cur : Str) (p : Nat)
    (h : Staged s0 s (s0.entry src) ef i j data perm cur p) :
    lstatNode s src = some (Node.file data perm) := by
  simp [lstatNode, nodeAt, h.entry_eq, h.src_link, h.src_node]

/-- Once the source is unlinked, the destination holds what was staged and
nothing is at the source. -/
theorem staged_final (s0 s : Sys) (src dst : Str) (ef : Str) (i j : Nat)
    (data : Str) (perm : Nat) (cur : Str) (p : Nat)
    (h : Staged s0 s (s0.entry src) ef i j data perm cur p)
    (hr : resolve s0 dst = some ef) :
    statNode (unlink s (s0.entry src)) dst = some (Node.file cur p) ∧
    lstatNode (unlink s (s0.entry src)) src = none := by
  have hne : ef ≠ s0.entry src := by
    intro e
    have h1 := h.dst_link
    rw [e, h.src_link] at h1
    exact h.ne (Option.some.inj h1).symm
  have hsrc0 : linkTarget s (s0.entry src) = none := by
    simp [linkTarget, nodeAt, h.src_link, h.src_node]
  have hres : resolve (unlink s (s0.entry src)) dst = some ef := by
    rw [resolve_congr s0 (unlink s (s0.entry src)) h.entry_eq
      (fun e => by rw [linkTarget_unlink s _ hsrc0 e]; exact h.links_eq e)]
    exact hr
  constructor
  · simp only [statNode, hres]
    simp [nodeAt, unlink, setLink, hne, h.dst_link, h.dst_node]
  · simp [lstatNode, nodeAt, unlink, setLink, h.entry_eq]

/-- With `printcommands` set, `moveFile` logs one line and goes on as without. -/
theorem moveFile_printcommands (ft : Faults) (src dst : Str) (s : Sys) :
    moveFile true ft src dst s =
      moveFile false ft src dst
        (if dst = ['-'] then logPrintf ("cat ".toList ++ src ++ ['\n']) s
         else logPrintf ("mv ".toList ++ src ++ [' '] ++ dst ++ ['\n']) s) := by
  simp [moveFile]

/-- The state after the log line has the same tables; paths name what they
named. -/
theorem logged_same (src dst : Str) (s : Sys) :
    (if dst = ['-'] then logPrintf ("cat ".toList ++ src ++ ['\n']) s
     else logPrintf ("mv ".toList ++ src ++ [' '] ++ dst ++ ['\n']) s).entry = s.entry ∧
    (if dst = ['-'] then logPrintf ("cat ".toList ++ src ++ ['\n']) s
     else logPrintf ("mv ".toList ++ src ++ [' '] ++ dst ++ ['\n']) s).links = s.links ∧
    (if dst = ['-'] then logPrintf ("cat ".toList ++ src ++ ['\n']) s
     else logPrintf ("mv ".toList ++ src ++ [' '] ++ dst ++ ['\n']) s).inodes = s.inodes ∧
    (if dst = ['-'] then logPrintf ("cat ".toList ++ src ++ ['\n']) s
     else logPrintf ("mv ".toList ++ src ++ [' '] ++ dst ++ ['\n']) s).umask = s.umask ∧
    (if dst = ['-'] then logPrintf ("cat ".toList ++ src ++ ['\n']) s
     else logPrintf ("mv ".toList ++ src ++ [' '] ++ dst ++ ['\n']) s).stdout = s.stdout := by
  split <;> exact ⟨rfl, rfl, rfl, rfl, rfl⟩

/-- Two states with the same resolution of paths, directory and inode table
show the same through `lstat`, `stat` and the inode numbers. -/
theorem same_tables (s s1 : Sys) (he : s1.entry = s.entry) (hl : s1.links = s.links)
    (hi : s1.inodes = s.inodes) (path : Str) :
    lstatNode s1 path = lstatNode s path ∧ statNode s1 path = statNode s path ∧
      inoOf s1 path = inoOf s path := by
  have hnode : ∀ e, nodeAt s1 e = nodeAt s e := by
    intro e; simp [nodeAt, hl, hi]
  have hres : resolve s1 path = resolve s path :=
    resolve_congr s s1 he (fun e => by simp [linkTarget, hnode]) path
  refine ⟨by simp [lstatNode, he, hnode], by simp [statNode, hres, hnode], ?_⟩
  simp [inoOf, hres, hl, hi]

/-- Without the log line: what `moveFile` leaves when it returns nil and when
it returns an error, for a regular source and a destination that does not name
the same file. -/
theorem moveFile_quiet_spec (ft : Faults) (src dst : Str) (s : Sys)
    (data : Str) (perm : Nat)
    (hsrc : lstatNode s src = some (Node.file data perm))
    (hdash : dst ≠ ['-'])
    (hdiff : inoOf s dst ≠ inoOf s src) :
    ((moveFile false ft src dst s).1 = none →
      statNode (moveFile false ft src dst s).2 dst = some (Node.file data perm) ∧
      lstatNode (moveFile false ft src dst s).2 src = none) ∧
    ((moveFile false ft src dst s).1 ≠ none →
      lstatNode (moveFile false ft src dst s).2 src = some (Node.file data perm)) := by
  obtain ⟨i, hl, hn⟩ := lstatNode_file s src data perm hsrc
  obtain ⟨_, _, hino⟩ := resolve_regular s src i data perm hl hn
  rw [hino] at hdiff
  have hnot : s.links (s.entry dst) ≠ some i := by
    intro h
    exact hdiff (resolve_regular s dst i data perm h hn).2.2
  rcases ft with ⟨fr, fo, fc, fs, fch, fcp, frm⟩
  simp only [moveFile, Bool.false_eq_true, if_false, if_neg hdash]
  rcases osRename_regular fr s src dst i data perm hl hn hnot with ⟨err, hren⟩ | hren
  · rw [hren, osOpen_regular fo s src i data perm hl hn]
    cases fo with
    | true => simp [hsrc]
    | false =>
      simp only [Bool.false_eq_true, if_false]
      rcases osCreate_staged fc s dst (s.entry src) i data perm hl hn hdiff with
        ⟨err2, hcr⟩ | ⟨ef, j, p, s1, hcr, hrd, hst⟩
      · rw [hcr]; simp [hsrc]
      · rw [hcr]
        simp only
        rw [fileStat_staged fs s s1 src _ ef i j data perm [] p hst]
        cases fs with
        | true => simp [staged_source s s1 src ef i j data perm [] p hst]
        | false =>
          simp only [Bool.false_eq_true, if_false]
          rw [fileChmod_staged fch _ s s1 dst _ ef i j data perm [] p hst]
          cases fch with
          | true => simp [staged_source s s1 src ef i j data perm [] p hst]
          | false =>
            simp only [Bool.false_eq_true, if_false]
            have hst2 := staged_set s s1 _ ef i j data perm [] p [] perm hst
            rw [ioCopyFile_staged fcp s _ src dst _ ef i j data perm [] perm hst2]
            cases fcp with
            | readFails k =>
              simp only [copied, List.nil_append]
              have hst3 := staged_set s _ _ ef i j data perm [] perm (data.take k) perm hst2
              simp [staged_source s _ src ef i j data perm _ perm hst3]
            | writeFails k =>
              simp only [copied, List.nil_append]
              have hst3 := staged_set s _ _ ef i j data perm [] perm (data.take k) perm hst2
              simp [staged_source s _ src ef i j data perm _ perm hst3]
            | none =>
              simp only [copied, List.nil_append]
              have hst3 := staged_set s _ _ ef i j data perm [] perm data perm hst2
              rw [osRemove_staged frm s _ src ef i j data perm _ perm hst3]
              cases frm with
              | true => simp [staged_source s _ src ef i j data perm _ perm hst3]
              | false =>
                simp only [Bool.false_eq_true, if_false]
                have hfin := staged_final s _ src dst ef i j data perm _ perm hst3 hrd
                simp [hfin]
  · rw [hren]
    simp [renamed_spec s src dst i data perm hl hn hnot]

/-- C4 (amended): for `src` an existing regular file and `dst` other than `-`
that does not name the same file as `src` (neither the same entry under any
spelling, nor a hard link or a symbolic link to it), a nil return of `moveFile`
leaves at `dst` a file with the original contents and permission bits of `src`
and nothing at `src`, on the rename path and on the fallback path alike. -/
theorem moveFile_ok (printcommands : Bool) (ft : Faults) (src dst : Str) (s : Sys)
    (data : Str) (perm : Nat)
    (hsrc : lstatNode s src = some (Node.file data perm))
    (hdash : dst ≠ ['-'])
    (hdiff : inoOf s dst ≠ inoOf s src)
    (hok : (moveFile printcommands ft src dst s).1 = none) :
    statNode (moveFile printcommands ft src dst s).2 dst = some (Node.file data perm) ∧
    lstatNode (moveFile printcommands ft src dst s).2 src = none := by
  cases printcommands with
  | false => exact (moveFile_quiet_spec ft src dst s data perm hsrc hdash hdiff).1 hok
  | true =>
    rw [moveFile_printcommands] at hok ⊢
    obtain ⟨he, hl, hi, _, _⟩ := logged_same src dst s
    have hsame := same_tables s _ he hl hi
    exact (moveFile_quiet_spec ft src dst _ data perm
      (by rw [(hsame src).1]; exact hsrc) hdash
      (by rw [(hsame dst).2.2, (hsame src).2.2]; exact hdiff)).1 hok

/-- Witness for `moveFile_ok`: `a` moved to `b`, once by rename and once, with
the rename failing and `printcommands` set, by the fallback. -/
theorem moveFile_ok_witness :
    (statNode (moveFile false noFaults "a".toList "b".toList sampleSys).2 "b".toList =
        some (Node.file "hi".toList 0o755) ∧
      lstatNode (moveFile false noFaults "a".toList "b".toList sampleSys).2 "a".toList =
        none) ∧
    (statNode (moveFile true renameFails "a".toList "b".toList sampleSys).2 "b".toList =
        some (Node.file "hi".toList 0o755) ∧
      lstatNode (moveFile true renameFails "a".toList "b".toList sampleSys).2 "a".toList =
        none) :=
  ⟨moveFile_ok false noFaults "a".toList "b".toList sampleSys "hi".toList 0o755
      (by decide) (by decide) (by decide) (by decide),
   moveFile_ok true renameFails "a".toList "b".toList sampleSys "hi".toList 0o755
      (by decide) (by decide) (by decide) (by decide)⟩

/-- C4 (counterexample): `moveFile("a", "a")` on an existing regular file `a`
returns nil by the rename path, and `a` is still there afterwards. -/
theorem moveFile_same_path_source_stays :
    lstatNode sampleSys "a".toList = some (Node.file "hi".toList 0o755) ∧
    "a".toList ≠ ['-'] ∧
    (moveFile false noFaults "a".toList "a".toList sampleSys).1 = none ∧
    lstatNode (moveFile false noFaults "a".toList "a".toList sampleSys).2 "a".toList ≠
      none := by
  decide

/-- The same with another spelling of the path and with a hard link: the
rename succeeds, changes nothing, and `a` is still there. -/
theorem moveFile_alias_source_stays :
    ((moveFile false noFaults "a".toList "./a".toList sampleSys).1 = none ∧
      lstatNode (moveFile false noFaults "a".toList "./a".toList sampleSys).2 "a".toList =
        some (Node.file "hi".toList 0o755)) ∧
    ((moveFile false noFaults "a".toList "h".toList sampleSys).1 = none ∧
      lstatNode (moveFile false noFaults "a".toList "h".toList sampleSys).2 "a".toList =
        some (Node.file "hi".toList 0o755)) := by
  decide

/-- With a symbolic link to the source as destination and the rename failing,
the fallback truncates the source through the link, copies nothing, removes
the source and returns nil: the link dangles and the contents are lost. -/
theorem moveFile_symlink_contents_lost :
    statNode sampleSys "e/l".toList = some (Node.file "hi".toList 0o755) ∧
    (moveFile false renameFails "a".toList "e/l".toList sampleSys).1 = none ∧
    statNode (moveFile false renameFails "a".toList "e/l".toList sampleSys).2 "e/l".toList =
      none := by
  decide

/-- C5 (amended): for `src` an existing regular file and `dst` other than `-`
that does not name the same file as `src`, when `moveFile` returns an error
the file at `src` is still there with its original contents and permission
bits. -/
theorem moveFile_err_source_intact (printcommands : Bool) (ft : Faults) (src dst : Str)
    (s : Sys) (data : Str) (perm : Nat)
    (hsrc : lstatNode s src = some (Node.file data perm))
    (hdash : dst ≠ ['-'])
    (hdiff : inoOf s dst ≠ inoOf s src)
    (herr : (moveFile printcommands ft src dst s).1 ≠ none) :
    lstatNode (moveFile printcommands ft src dst s).2 src = some (Node.file data perm) := by
  cases printcommands with
  | false => exact (moveFile_quiet_spec ft src dst s data perm hsrc hdash hdiff).2 herr
  | true =>
    rw [moveFile_printcommands] at herr ⊢
    obtain ⟨he, hl, hi, _, _⟩ := logged_same src dst s
    have hsame := same_tables s _ he hl hi
    exact (moveFile_quiet_spec ft src dst _ data perm
      (by rw [(hsame src).1]; exact hsrc) hdash
      (by rw [(hsame dst).2.2, (hsame src).2.2]; exact hdiff)).2 herr

/-- Witness for `moveFile_err_source_intact`: the rename of `a` to `b` fails,
the fallback copies, and the final remove fails. -/
theorem moveFile_err_source_intact_witness :
    (moveFile false renameRemoveFail "a".toList "b".toList sampleSys).1 ≠ none ∧
    lstatNode (moveFile false renameRemoveFail "a".toList "b".toList sampleSys).2
        "a".toList =
      some (Node.file "hi".toList 0o755) :=
  ⟨by decide,
   moveFile_err_source_intact false renameRemoveFail "a".toList "b".toList sampleSys
     "hi".toList 0o755 (by decide) (by decide) (by decide) (by decide)⟩

/-- C5 (counterexample): `a` is a regular file and `e/l` a symbolic link to it.
The rename of `a` to `e/l` fails and so does the final remove (the directory of
`a` may not be written).  In between `os.Create("e/l")` follows the link and
truncates `a`.  `moveFile("a", "e/l")` returns the error of the remove, and `a`
has lost its contents. -/
theorem moveFile_symlink_source_truncated :
    lstatNode sampleSys "a".toList = some (Node.file "hi".toList 0o755) ∧
    lstatNode sampleSys "e/l".toList = some (Node.symlink "/work/a".toList) ∧
    "e/l".toList ≠ ['-'] ∧
    (moveFile false renameRemoveFail "a".toList "e/l".toList sampleSys).1 =
      some (Error.pathError "remove".toList "a".toList) ∧
    lstatNode (moveFile false renameRemoveFail "a".toList "e/l".toList sampleSys).2
        "a".toList =
      some (Node.file [] 0o755) := by
  decide

/-- What `stat` sees of a path is what `os.Open` opens. -/
theorem osOpen_of_stat (s : Sys) (path : Str) (nd : Node) (h : statNode s path = some nd) :
    ∃ i, osOpen false path s = .ok { name := path, ino := i } ∧ s.inodes[i]? = some nd := by
  unfold statNode at h
  cases hr : resolve s path with
  | none => rw [hr] at h; exact absurd h (by simp)
  | some e =>
    rw [hr] at h
    simp only [nodeAt] at h
    cases hl : s.links e with
    | none => rw [hl] at h; exact absurd h (by simp)
    | some i =>
      rw [hl] at h
      simp only at h
      exact ⟨i, by simp [osOpen, hr, hl, h], h⟩

/-- Without the log line: streaming a file to standard output. -/
theorem moveFile_stdout_quiet (ft : Faults) (src : Str) (s : Sys)
    (data : Str) (perm : Nat)
    (hsrc : statNode s src = some (Node.file data perm))
    (hopen : ft.openErr = false) :
    (moveFile false ft src ['-'] s).2.entry = s.entry ∧
    (moveFile false ft src ['-'] s).2.links = s.links ∧
    (moveFile false ft src ['-'] s).2.inodes = s.inodes ∧
    (moveFile false ft src ['-'] s).2.umask = s.umask ∧
    (moveFile false ft src ['-'] s).1 = (copied ft.copyErr src "/dev/stdout".toList data).2 ∧
    (moveFile false ft src ['-'] s).2.stdout =
      s.stdout ++ (copied ft.copyErr src "/dev/stdout".toList data).1 := by
  obtain ⟨i, ho, hi⟩ := osOpen_of_stat s src _ hsrc
  rcases ft with ⟨fr, fo, fc, fs, fch, fcp, frm⟩
  simp only at hopen
  subst hopen
  simp [moveFile, ho, ioCopyStdout, hi]

/-- C8 (amended): for `src` an existing regular file that can be opened and
read, `moveFile(src, "-")` leaves the filesystem (resolution of paths,
directory entries, inodes) and the umask as they were; when the copy does not
fail it returns nil and standard output has grown by exactly the contents of
`src`; when a write to standard output fails after `k` bytes it returns that
error and standard output has grown by the first `k` bytes. -/
theorem moveFile_stdout (printcommands : Bool) (ft : Faults) (src : Str) (s : Sys)
    (data : Str) (perm : Nat)
    (hsrc : statNode s src = some (Node.file data perm))
    (hopen : ft.openErr = false)
    (_hread : ∀ k, ft.copyErr ≠ CopyFault.readFails k) :
    (moveFile printcommands ft src ['-'] s).2.entry = s.entry ∧
    (moveFile printcommands ft src ['-'] s).2.links = s.links ∧
    (moveFile printcommands ft src ['-'] s).2.inodes = s.inodes ∧
    (moveFile printcommands ft src ['-'] s).2.umask = s.umask ∧
    (ft.copyErr = CopyFault.none →
      (moveFile printcommands ft src ['-'] s).1 = none ∧
      (moveFile printcommands ft src ['-'] s).2.stdout = s.stdout ++ data) ∧
    (∀ k, ft.copyErr = CopyFault.writeFails k →
      (moveFile printcommands ft src ['-'] s).1 =
        some (Error.pathError "write".toList "/dev/stdout".toList) ∧
      (moveFile printcommands ft src ['-'] s).2.stdout = s.stdout ++ data.take k) := by
  have key : ∀ s1 : Sys, s1.entry = s.entry → s1.links = s.links → s1.inodes = s.inodes →
      s1.umask = s.umask → s1.stdout = s.stdout →
      (moveFile false ft src ['-'] s1).2.entry = s.entry ∧
      (moveFile false ft src ['-'] s1).2.links = s.links ∧
      (moveFile false ft src ['-'] s1).2.inodes = s.inodes ∧
      (moveFile false ft src ['-'] s1).2.umask = s.umask ∧
      (ft.copyErr = CopyFault.none →
        (moveFile false ft src ['-'] s1).1 = none ∧
        (moveFile false ft src ['-'] s1).2.stdout = s.stdout ++ data) ∧
      (∀ k, ft.copyErr = CopyFault.writeFails k →
        (moveFile false ft src ['-'] s1).1 =
          some (Error.pathError "write".toList "/dev/stdout".toList) ∧
        (moveFile false ft src ['-'] s1).2.stdout = s.stdout ++ data.take k) := by
    intro s1 he hl hi hu ho
    have hsrc1 : statNode s1 src = some (Node.file data perm) := by
      rw [(same_tables s s1 he hl hi src).2.1]; exact hsrc
    obtain ⟨h1, h2, h3, h4, h5, h6⟩ := moveFile_stdout_quiet ft src s1 data perm hsrc1 hopen
    refine ⟨h1.trans he, h2.trans hl, h3.trans hi, h4.trans hu, ?_, ?_⟩
    · intro hc
      rw [h5, h6, hc, ho]
      exact ⟨rfl, rfl⟩
    · intro k hc
      rw [h5, h6, hc, ho]
      exact ⟨rfl, rfl⟩
  cases printcommands with
  | false => exact key s rfl rfl rfl rfl rfl
  | true =>
    rw [moveFile_printcommands]
    obtain ⟨he, hl, hi, hu, ho⟩ := logged_same src ['-'] s
    exact key _ he hl hi hu ho

/-- Witness for `moveFile_stdout`: `a` streamed with nothing failing. -/
theorem moveFile_stdout_witness :
    (moveFile true noFaults "a".toList ['-'] sampleSys).2.entry = sampleSys.entry ∧
    (moveFile true noFaults "a".toList ['-'] sampleSys).2.links = sampleSys.links ∧
    (moveFile true noFaults "a".toList ['-'] sampleSys).2.inodes = sampleSys.inodes ∧
    (moveFile true noFaults "a".toList ['-'] sampleSys).2.umask = sampleSys.umask ∧
    (noFaults.copyErr = CopyFault.none →
      (moveFile true noFaults "a".toList ['-'] sampleSys).1 = none ∧
      (moveFile true noFaults "a".toList ['-'] sampleSys).2.stdout =
        sampleSys.stdout ++ "hi".toList) ∧
    (∀ k, noFaults.copyErr = CopyFault.writeFails k →
      (moveFile true noFaults "a".toList ['-'] sampleSys).1 =
        some (Error.pathError "write".toList "/dev/stdout".toList) ∧
      (moveFile true noFaults "a".toList ['-'] sampleSys).2.stdout =
        sampleSys.stdout ++ "hi".toList.take k) :=
  moveFile_stdout true noFaults "a".toList sampleSys "hi".toList 0o755
    (by decide) (by decide) (fun k => by simp [noFaults])

/-- C8 (counterexample): `a` exists and can be opened and read, the write to
standard output fails, and `moveFile("a", "-")` returns that error instead of
nil, with nothing appended. -/
theorem moveFile_stdout_write_error :
    statNode sampleSys "a".toList = some (Node.file "hi".toList 0o755) ∧
    writeFails.openErr = false ∧
    (moveFile false writeFails "a".toList ['-'] sampleSys).1 =
      some (Error.pathError "write".toList "/dev/stdout".toList) ∧
    (moveFile false writeFails "a".toList ['-'] sampleSys).2.stdout = sampleSys.stdout := by
  decide

/-! ## Theorems: translateGccgoExterns -/

/-- Go's `HasPrefix` is the list prefix test. -/
theorem HasPrefix_eq_isPrefixOf (pre : Str) : ∀ s : Str, HasPrefix s pre = pre.isPrefixOf s := by
  induction pre with
  | nil => intro s; simp [HasPrefix]
  | cons a p ih =>
    intro s
    cases s with
    | nil => simp [HasPrefix]
    | cons b t =>
      have := ih t
      simp only [HasPrefix, List.length_cons, List.take_succ_cons, List.isPrefixOf] at this ⊢
      by_cases hab : a = b
      · subst hab
        simp only [Nat.add_le_add_iff_right, beq_self_eq_true, Bool.true_and]
        rw [← this]
        simp
      · have hba : ¬ b = a := fun h => hab h.symm
        have h1 : (b :: List.take p.length t == a :: p) = false := by simp [hba]
        have h2 : (a == b) = false := by simp [hab]
        rw [h1, h2]
        simp

/-- The lines of a text are never none. -/
theorem splitLines_ne_nil (data : Str) : splitLines data ≠ [] := by
  cases data with
  | nil => simp [splitLines]
  | cons c cs =>
    simp only [splitLines]
    split
    · simp
    · split <;> simp

/-- Joining the lines of a text gives the text back. -/
theorem joinLines_splitLines (data : Str) : joinLines (splitLines data) = data := by
  induction data with
  | nil => rfl
  | cons c cs ih =>
    simp only [splitLines]
    by_cases hc : c = '\n'
    · subst hc
      simp only [if_true]
      cases h : splitLines cs with
      | nil => exact absurd h (splitLines_ne_nil cs)
      | cons l ls =>
        rw [h] at ih
        simp only [joinLines, stringsJoin] at ih ⊢
        simp [ih]
    · simp only [if_neg hc]
      cases h : splitLines cs with
      | nil => exact absurd h (splitLines_ne_nil cs)
      | cons l ls =>
        rw [h] at ih
        cases ls with
        | nil => simp only [joinLines, stringsJoin] at ih ⊢; simp [ih]
        | cons l2 ls2 => simp only [joinLines, stringsJoin] at ih ⊢; simp [← ih]

/-- No line of a text holds a newline. -/
theorem splitLines_no_newline (data : Str) : ∀ l ∈ splitLines data, '\n' ∉ l := by
  induction data with
  | nil => simp [splitLines]
  | cons c cs ih =>
    simp only [splitLines]
    by_cases hc : c = '\n'
    · simp only [if_pos hc]
      intro l hl
      rcases List.mem_cons.mp hl with h | h
      · simp [h]
      · exact ih l h
    · simp only [if_neg hc]
      cases h : splitLines cs with
      | nil => exact absurd h (splitLines_ne_nil cs)
      | cons l0 ls =>
        rw [h] at ih
        intro l hl
        rcases List.mem_cons.mp hl with h1 | h1
        · subst h1
          have := ih l0 (List.mem_cons_self _ _)
          simp only [List.mem_cons, not_or]
          exact ⟨fun h2 => hc h2.symm, this⟩
        · exact ih l (List.mem_cons_of_mem _ h1)

/-- Splitting a newline-free line followed by a newline and more text. -/
theorem splitLines_append_newline (rest : Str) :
    ∀ l : Str, '\n' ∉ l → splitLines (l ++ '\n' :: rest) = l :: splitLines rest := by
  intro l
  induction l with
  | nil => intro _; simp [splitLines]
  | cons c t ih =>
    intro h
    simp only [List.mem_cons, not_or] at h
    have hc : ¬ c = '\n' := fun e => h.1 e.symm
    simp [splitLines, hc, ih h.2]

/-- Splitting a single newline-free line. -/
theorem splitLines_single : ∀ l : Str, '\n' ∉ l → splitLines l = [l] := by
  intro l
  induction l with
  | nil => intro _; rfl
  | cons c t ih =>
    intro h
    simp only [List.mem_cons, not_or] at h
    have hc : ¬ c = '\n' := fun e => h.1 e.symm
    simp [splitLines, hc, ih h.2]

/-- Splitting inverts joining on newline-free lines. -/
theorem splitLines_joinLines :
    ∀ ls : List Str, ls ≠ [] → (∀ l ∈ ls, '\n' ∉ l) → splitLines (joinLines ls) = ls := by
  intro ls
  induction ls with
  | nil => intro h; exact absurd rfl h
  | cons l rest ih =>
    intro _ hall
    cases rest with
    | nil => simpa [joinLines, stringsJoin] using splitLines_single l (hall l (List.mem_cons_self _ _))
    | cons l2 ls2 =>
      have h1 : joinLines (l :: l2 :: ls2) = l ++ '\n' :: joinLines (l2 :: ls2) := by
        simp [joinLines, stringsJoin]
      rw [h1, splitLines_append_newline _ l (hall l (List.mem_cons_self _ _)),
        ih (by simp) (fun x hx => hall x (List.mem_cons_of_mem _ hx))]

/-- A newline-free pattern is a prefix of a line followed by the end of the
text or by a newline exactly when it is a prefix of the line. -/
theorem isPrefixOf_line (r : Str) (hr : r = [] ∨ ∃ rest, r = '\n' :: rest) :
    ∀ (p l : Str), '\n' ∉ p → p.isPrefixOf (l ++ r) = p.isPrefixOf l := by
  intro p
  induction p with
  | nil => intro l _; simp
  | cons a p ih =>
    intro l hp
    simp only [List.mem_cons, not_or] at hp
    cases l with
    | nil =>
      rcases hr with h | ⟨rest, h⟩
      · subst h; rfl
      · subst h
        have : (a == '\n') = false := by
          simp only [beq_eq_false_iff_ne, ne_eq]
          exact fun e => hp.1 e.symm
        simp [List.isPrefixOf, this]
    | cons b t =>
      simp only [List.cons_append, List.isPrefixOf, List.append_eq]
      rw [ih t hp.2]

/-- The pattern does not match in the middle of a line. -/
theorem gccgoExternMatchAt_mid (c : Char) (hc : c ≠ '\n') (rest : Str) :
    gccgoExternMatchAt (some c) rest = false := by
  simp [gccgoExternMatchAt, hc]

/-- From the middle of a line the scan copies up to and including the next
newline and is then at the start of a line. -/
theorem replaceScan_mid (repl : Str) (r : Str) (hr : r = [] ∨ ∃ rest, r = '\n' :: rest) :
    ∀ (l : Str) (c : Char), '\n' ∉ l → c ≠ '\n' →
      replaceScan repl (some c) 0 (l ++ r) =
        l ++ r.take 1 ++ replaceScan repl (some '\n') 0 (r.drop 1) := by
  intro l
  induction l with
  | nil =>
    intro c _ hc
    rcases hr with h | ⟨rest, h⟩
    · subst h; simp [replaceScan]
    · subst h
      simp [replaceScan, gccgoExternMatchAt_mid c hc]
  | cons b t ih =>
    intro c hl hc
    simp only [List.mem_cons, not_or] at hl
    have hb : b ≠ '\n' := fun e => hl.1 e.symm
    rw [List.cons_append, replaceScan, gccgoExternMatchAt_mid c hc, ih b hl.2 hb]
    simp

/-- At the start of a line the scan rewrites the line, copies the newline and
is again at the start of a line. -/
theorem replaceScan_line (r : Str) (hr : r = [] ∨ ∃ rest, r = '\n' :: rest)
    (prev : Option Char) (hprev : prev = none ∨ prev = some '\n') (l : Str) (hl : '\n' ∉ l) :
    replaceScan llgoName prev 0 (l ++ r) =
      rewriteLine l ++ r.take 1 ++ replaceScan llgoName (some '\n') 0 (r.drop 1) := by
  have hstart : (prev == none || prev == some '\n') = true := by
    rcases hprev with h | h <;> simp [h]
  have hlit : '\n' ∉ gccgoExternLiteral := by decide
  cases hp : gccgoExternLiteral.isPrefixOf l with
  | true =>
    obtain ⟨t, ht⟩ := List.isPrefixOf_iff_prefix.mp hp
    have hrw : rewriteLine l = llgoName ++ t := by
      simp only [rewriteLine, HasPrefix_eq_isPrefixOf, hp, if_true]
      rw [← ht]; simp
    have ht2 : '\n' ∉ t := by
      intro h; apply hl; rw [← ht]; exact List.mem_append_right _ h
    rw [hrw, ← ht]
    have hm : gccgoExternMatchAt prev (gccgoExternLiteral ++ t ++ r) = true := by
      simp only [gccgoExternMatchAt, hstart, Bool.true_and, List.append_assoc]
      exact List.isPrefixOf_iff_prefix.mpr (List.prefix_append _ _)
    have hstep : replaceScan llgoName prev 0 (gccgoExternLiteral ++ t ++ r) =
        llgoName ++ replaceScan llgoName (some ' ') 0 (t ++ r) := by
      have e : gccgoExternLiteral ++ t ++ r =
          '/' :: ('/' :: 'e' :: 'x' :: 't' :: 'e' :: 'r' :: 'n' :: ' ' :: (t ++ r)) := by
        simp [gccgoExternLiteral]
      rw [e] at hm ⊢
      rw [replaceScan, if_pos hm]
      rfl
    rw [hstep, replaceScan_mid llgoName r hr t ' ' ht2 (by decide)]
    simp
  | false =>
    have hrw : rewriteLine l = l := by
      simp [rewriteLine, HasPrefix_eq_isPrefixOf, hp]
    rw [hrw]
    cases l with
    | nil =>
      rcases hr with h | ⟨rest, h⟩
      · subst h; simp [replaceScan]
      · subst h
        have : gccgoExternMatchAt prev ('\n' :: rest) = false := by
          simp [gccgoExternMatchAt, gccgoExternLiteral, List.isPrefixOf]
        simp [replaceScan, this]
    | cons b t =>
      simp only [List.mem_cons, not_or] at hl
      have hb : b ≠ '\n' := fun e => hl.1 e.symm
      have hm : gccgoExternMatchAt prev (b :: (t ++ r)) = false := by
        have := isPrefixOf_line r hr gccgoExternLiteral (b :: t) hlit
        simp only [List.cons_append] at this
        simp [gccgoExternMatchAt, this, hp]
      rw [List.cons_append, replaceScan, hm, replaceScan_mid llgoName r hr t b hl.2 hb]
      simp

/-- From the start of a line, the scan of joined lines is the join of the
rewritten lines. -/
theorem replaceScan_joinLines (prev : Option Char) (hprev : prev = none ∨ prev = some '\n') :
    ∀ ls : List Str, ls ≠ [] → (∀ l ∈ ls, '\n' ∉ l) →
      replaceScan llgoName prev 0 (joinLines ls) = joinLines (ls.map rewriteLine) := by
  intro ls
  induction ls generalizing prev with
  | nil => intro h; exact absurd rfl h
  | cons l rest ih =>
    intro _ hall
    have hl := hall l (List.mem_cons_self _ _)
    cases rest with
    | nil =>
      have := replaceScan_line [] (Or.inl rfl) prev hprev l hl
      simpa [joinLines, stringsJoin, replaceScan] using this
    | cons l2 ls2 =>
      have h1 : joinLines (l :: l2 :: ls2) = l ++ '\n' :: joinLines (l2 :: ls2) := by
        simp [joinLines, stringsJoin]
      have h2 : joinLines ((l :: l2 :: ls2).map rewriteLine) =
          rewriteLine l ++ '\n' :: joinLines ((l2 :: ls2).map rewriteLine) := by
        simp [joinLines, stringsJoin]
      rw [h1, h2, replaceScan_line _ (Or.inr ⟨_, rfl⟩) prev hprev l hl]
      simp only [List.take_succ_cons, List.take_zero, List.drop_succ_cons, List.drop_zero]
      rw [ih (some '\n') (Or.inr rfl) (by simp) (fun x hx => hall x (List.mem_cons_of_mem _ hx))]
      simp

/-- The regexp replacement is the line-wise rewrite. -/
theorem ReplaceAllLiteral_eq_rewriteLines (data : Str) :
    ReplaceAllLiteral data llgoName = rewriteLines data := by
  unfold ReplaceAllLiteral rewriteLines
  have := replaceScan_joinLines none (Or.inl rfl) (splitLines data)
    (splitLines_ne_nil data) (splitLines_no_newline data)
  rw [joinLines_splitLines] at this
  exact this

/-- A rewritten line holds no newline if the line held none. -/
theorem rewriteLine_no_newline (l : Str) (hl : '\n' ∉ l) : '\n' ∉ rewriteLine l := by
  unfold rewriteLine
  split
  · intro h
    rcases List.mem_append.mp h with h1 | h1
    · revert h1; decide
    · exact hl (List.mem_of_mem_drop h1)
  · exact hl

/-- A rewritten line does not begin with `//extern `. -/
theorem rewriteLine_not_extern (l : Str) :
    HasPrefix (rewriteLine l) gccgoExternLiteral = false := by
  unfold rewriteLine
  split
  · rw [HasPrefix_eq_isPrefixOf]
    simp [llgoName, gccgoExternLiteral, List.isPrefixOf]
  · next h => simpa using h

/-- Rewriting a rewritten line changes nothing. -/
theorem rewriteLine_idem (l : Str) : rewriteLine (rewriteLine l) = rewriteLine l := by
  have h := rewriteLine_not_extern l
  generalize rewriteLine l = m at h
  simp [rewriteLine, h]

/-- The lines of the rewritten text are the rewritten lines of the text: their
number and order are kept. -/
theorem splitLines_ReplaceAllLiteral (data : Str) :
    splitLines (ReplaceAllLiteral data llgoName) = (splitLines data).map rewriteLine := by
  rw [ReplaceAllLiteral_eq_rewriteLines]
  unfold rewriteLines
  apply splitLines_joinLines
  · simpa using splitLines_ne_nil data
  · intro l hl
    obtain ⟨l0, h0, rfl⟩ := List.mem_map.mp hl
    exact rewriteLine_no_newline l0 (splitLines_no_newline data l0 h0)

/-- The regexp replacement applied twice is the replacement applied once. -/
theorem ReplaceAllLiteral_idem (data : Str) :
    ReplaceAllLiteral (ReplaceAllLiteral data llgoName) llgoName =
      ReplaceAllLiteral data llgoName := by
  rw [ReplaceAllLiteral_eq_rewriteLines (ReplaceAllLiteral data llgoName)]
  unfold rewriteLines
  rw [splitLines_ReplaceAllLiteral, List.map_map]
  have : rewriteLine ∘ rewriteLine = rewriteLine := funext rewriteLine_idem
  rw [this, ReplaceAllLiteral_eq_rewriteLines]
  rfl

/-- What `stat` sees of a regular file, unfolded. -/
theorem statNode_file (s : Sys) (path : Str) (data : Str) (perm : Nat)
    (h : statNode s path = some (Node.file data perm)) :
    ∃ e i, resolve s path = some e ∧ s.links e = some i ∧
      s.inodes[i]? = some (Node.file data perm) := by
  unfold statNode at h
  cases hr : resolve s path with
  | none => rw [hr] at h; exact absurd h (by simp)
  | some e =>
    rw [hr] at h
    simp only [nodeAt] at h
    cases hl : s.links e with
    | none => rw [hl] at h; exact absurd h (by simp)
    | some i =>
      rw [hl] at h
      exact ⟨e, i, rfl, hl, h⟩

/-- After new contents are written into a regular file, `stat` sees them at
every path that reached the file. -/
theorem statNode_setInode (s : Sys) (path e : Str) (i : Nat) (data : Str) (perm : Nat)
    (c : Str) (p : Nat)
    (hr : resolve s path = some e) (hl : s.links e = some i)
    (hn : s.inodes[i]? = some (Node.file data perm)) :
    resolve (setInode s i (Node.file c p)) path = some e ∧
    statNode (setInode s i (Node.file c p)) path = some (Node.file c p) := by
  have hlt : i < s.inodes.length := by
    rcases List.getElem?_eq_some_iff.mp hn with ⟨h, _⟩
    exact h
  have hres : resolve (setInode s i (Node.file c p)) path = some e := by
    rw [resolve_congr s (setInode s i (Node.file c p)) rfl
      (fun x => linkTarget_set_file s i c p (by rw [hn]; simp) x)]
    exact hr
  refine ⟨hres, ?_⟩
  simp only [statNode, hres]
  simp only [nodeAt, setInode, hl]
  rw [List.getElem?_set_self hlt]

/-- A successful run on an existing file: the inode of the file now holds the
replaced text, with its mode kept; nothing else has changed. -/
theorem translateGccgoExterns_ok (readErr : Bool) (writeErr : WriteFault) (filename : Str)
    (s : Sys) (data : Str) (perm : Nat)
    (hfile : statNode s filename = some (Node.file data perm))
    (hok : (translateGccgoExterns readErr writeErr filename s).1 = none) :
    ∃ e i, resolve s filename = some e ∧ s.links e = some i ∧
      s.inodes[i]? = some (Node.file data perm) ∧
      (translateGccgoExterns readErr writeErr filename s).2 =
        setInode s i (Node.file (ReplaceAllLiteral data llgoName) perm) := by
  obtain ⟨e, i, hr, hl, hn⟩ := statNode_file s filename data perm hfile
  refine ⟨e, i, hr, hl, hn, ?_⟩
  revert hok
  cases readErr <;> cases writeErr <;>
    simp [translateGccgoExterns, ReadFile, WriteFile, written, hfile, hr, hl, hn]

/-- C7: when `translateGccgoExterns` succeeds on a file with contents `data`,
the contents written are the lines of `data` (split on newline), each line that
begins with `//extern ` having that prefix, and only it, replaced by
`// #llgo name: ` and every other line kept, joined again by newlines; the
lines of the result are the rewritten lines, as many and in the same order; and
the line `//extern foo` becomes `// #llgo name: foo`. -/
theorem translateGccgoExterns_linewise (readErr : Bool) (writeErr : WriteFault)
    (filename : Str) (s : Sys) (data : Str) (perm : Nat)
    (hfile : statNode s filename = some (Node.file data perm))
    (hok : (translateGccgoExterns readErr writeErr filename s).1 = none) :
    statNode (translateGccgoExterns readErr writeErr filename s).2 filename =
      some (Node.file (joinLines ((splitLines data).map rewriteLine)) perm) ∧
    joinLines (splitLines data) = data ∧
    splitLines (joinLines ((splitLines data).map rewriteLine)) =
      (splitLines data).map rewriteLine ∧
    rewriteLine "//extern foo".toList = "// #llgo name: foo".toList := by
  refine ⟨?_, joinLines_splitLines data, ?_, by decide⟩
  · obtain ⟨e, i, hr, hl, hn, hres⟩ :=
      translateGccgoExterns_ok readErr writeErr filename s data perm hfile hok
    rw [hres, (statNode_setInode s filename e i data perm _ perm hr hl hn).2,
      ReplaceAllLiteral_eq_rewriteLines]
    rfl
  · have := splitLines_ReplaceAllLiteral data
    rw [ReplaceAllLiteral_eq_rewriteLines] at this
    exact this

/-- Witness for `translateGccgoExterns_linewise`: the sample source file. -/
theorem translateGccgoExterns_linewise_witness :
    statNode (translateGccgoExterns false WriteFault.none "x.go".toList sampleSource).2
        "x.go".toList =
      some (Node.file (joinLines ((splitLines
        "package p\n//extern foo\nfunc f()".toList).map rewriteLine)) 0o600) ∧
    joinLines (splitLines "package p\n//extern foo\nfunc f()".toList) =
      "package p\n//extern foo\nfunc f()".toList ∧
    splitLines (joinLines ((splitLines
        "package p\n//extern foo\nfunc f()".toList).map rewriteLine)) =
      (splitLines "package p\n//extern foo\nfunc f()".toList).map rewriteLine ∧
    rewriteLine "//extern foo".toList = "// #llgo name: foo".toList :=
  translateGccgoExterns_linewise false WriteFault.none "x.go".toList sampleSource
    "package p\n//extern foo\nfunc f()".toList 0o600 (by decide) (by decide)

/-- C6: when `translateGccgoExterns` succeeds on a file and then succeeds again
on the result, the second run leaves the state of the first; the replacement
applied to replaced text gives that text back; and no line of replaced text
begins with `//extern `. -/
theorem translateGccgoExterns_idempotent (r1 r2 : Bool) (w1 w2 : WriteFault)
    (filename : Str) (s : Sys) (data : Str) (perm : Nat)
    (hfile : statNode s filename = some (Node.file data perm))
    (hok1 : (translateGccgoExterns r1 w1 filename s).1 = none)
    (hok2 : (translateGccgoExterns r2 w2 filename
              (translateGccgoExterns r1 w1 filename s).2).1 = none) :
    (translateGccgoExterns r2 w2 filename (translateGccgoExterns r1 w1 filename s).2).2 =
      (translateGccgoExterns r1 w1 filename s).2 ∧
    ReplaceAllLiteral (ReplaceAllLiteral data llgoName) llgoName =
      ReplaceAllLiteral data llgoName ∧
    ∀ l ∈ splitLines (ReplaceAllLiteral data llgoName),
      HasPrefix l gccgoExternLiteral = false := by
  refine ⟨?_, ReplaceAllLiteral_idem data, ?_⟩
  · obtain ⟨e, i, hr, hl, hn, h1⟩ :=
      translateGccgoExterns_ok r1 w1 filename s data perm hfile hok1
    rw [h1] at hok2 ⊢
    obtain ⟨hr1, hst1⟩ := statNode_setInode s filename e i data perm
      (ReplaceAllLiteral data llgoName) perm hr hl hn
    obtain ⟨e2, i2, hr2, hl2, _, h2⟩ :=
      translateGccgoExterns_ok r2 w2 filename _ (ReplaceAllLiteral data llgoName) perm
        hst1 hok2
    have he : e2 = e := by
      rw [hr1] at hr2
      exact (Option.some.inj hr2).symm
    subst he
    have hi : i2 = i := by
      have : s.links e2 = some i2 := hl2
      rw [hl] at this
      exact (Option.some.inj this).symm
    subst hi
    rw [h2, ReplaceAllLiteral_idem]
    simp [setInode, List.set_set]
  · intro l hl
    rw [splitLines_ReplaceAllLiteral] at hl
    obtain ⟨l0, _, rfl⟩ := List.mem_map.mp hl
    exact rewriteLine_not_extern l0

/-- Witness for `translateGccgoExterns_idempotent`: two runs on the sample
source file. -/
theorem translateGccgoExterns_idempotent_witness :
    (translateGccgoExterns false WriteFault.none "x.go".toList
        (translateGccgoExterns false WriteFault.none "x.go".toList sampleSource).2).2 =
      (translateGccgoExterns false WriteFault.none "x.go".toList sampleSource).2 ∧
    ReplaceAllLiteral
        (ReplaceAllLiteral "package p\n//extern foo\nfunc f()".toList llgoName) llgoName =
      ReplaceAllLiteral "package p\n//extern foo\nfunc f()".toList llgoName ∧
    ∀ l ∈ splitLines (ReplaceAllLiteral "package p\n//extern foo\nfunc f()".toList llgoName),
      HasPrefix l gccgoExternLiteral = false :=
  translateGccgoExterns_idempotent false false WriteFault.none WriteFault.none "x.go".toList
    sampleSource "package p\n//extern foo\nfunc f()".toList 0o600
    (by decide) (by decide) (by decide)


/-! ## Theorems: envFields -/

/-- The result of `FieldsFunc` as loop, then flush. -/
theorem FieldsFunc_eq (s : Str) (f : Char → Bool) :
    FieldsFunc s f = fieldsFinish (s.foldl (fieldsStep f) { done := [], cur := none }) := rfl

/-- Fields emitted before a point of the loop stay in front of the result. -/
theorem fieldsFinish_foldl_done (f : Char → Bool) :
    ∀ (s : Str) (done : List Str) (cur : Option Str),
      fieldsFinish (s.foldl (fieldsStep f) { done := done, cur := cur }) =
        done ++ fieldsFinish (s.foldl (fieldsStep f) { done := [], cur := cur }) := by
  intro s
  induction s with
  | nil => intro done cur; cases cur <;> simp [fieldsFinish]
  | cons c s ih =>
    intro done cur
    simp only [List.foldl_cons, fieldsStep]
    cases hf : f c <;> cases cur with
    | none => simp only [Bool.false_eq_true, if_false, if_true]; exact ih _ _
    | some fld =>
      simp only [Bool.false_eq_true, if_false, if_true]
      first
        | exact ih _ _
        | (rw [ih (done ++ [fld]) none, ih ([] ++ [fld]) none]; simp)

/-- Whitespace in front of a text does not change its tokens. -/
theorem FieldsOf_cons_space (c : Char) (hc : isSpace c = true) (s : Str) (toks : List Str)
    (h : FieldsOf s toks) : FieldsOf (c :: s) toks := by
  cases h with
  | blank ws hws =>
    exact FieldsOf.blank (c :: s) (by
      intro x hx
      rcases List.mem_cons.mp hx with h1 | h1
      · rw [h1]; exact hc
      · exact hws x h1)
  | token ws t rest toks hws hne ht hrest htail =>
    have := FieldsOf.token (c :: ws) t rest toks (by
      intro x hx
      rcases List.mem_cons.mp hx with h1 | h1
      · rw [h1]; exact hc
      · exact hws x h1) hne ht hrest htail
    simpa using this

/-- The loop of `Fields`, from a state between fields and from a state inside a
field, yields the tokens of the text read. -/
theorem fields_loop_spec :
    ∀ s : Str,
      FieldsOf s (fieldsFinish (s.foldl (fieldsStep isSpace) { done := [], cur := none })) ∧
      ∀ fld : Str, ∃ (t rest : Str) (toks : List Str),
        fieldsFinish (s.foldl (fieldsStep isSpace) { done := [], cur := some fld }) =
          (fld ++ t) :: toks ∧
        s = t ++ rest ∧
        (∀ c ∈ t, isSpace c = false) ∧
        (rest = [] ∨ ∃ c cs, rest = c :: cs ∧ isSpace c = true) ∧
        FieldsOf rest toks := by
  intro s
  induction s with
  | nil =>
    refine ⟨FieldsOf.blank [] (by simp), fun fld => ⟨[], [], [], ?_, rfl, by simp, Or.inl rfl,
      FieldsOf.blank [] (by simp)⟩⟩
    simp [fieldsFinish]
  | cons c s ih =>
    obtain ⟨ih1, ih2⟩ := ih
    cases hc : isSpace c with
    | true =>
      constructor
      · simp only [List.foldl_cons, fieldsStep, hc, if_true]
        exact FieldsOf_cons_space c hc s _ ih1
      · intro fld
        refine ⟨[], c :: s, _, ?_, rfl, by simp, Or.inr ⟨c, s, rfl, hc⟩,
          FieldsOf_cons_space c hc s _ ih1⟩
        simp only [List.foldl_cons, fieldsStep, hc, if_true]
        rw [fieldsFinish_foldl_done]
        simp
    | false =>
      constructor
      · simp only [List.foldl_cons, fieldsStep, hc, Bool.false_eq_true, if_false]
        obtain ⟨t, rest, toks, h1, h2, h3, h4, h5⟩ := ih2 [c]
        rw [h1, h2]
        have := FieldsOf.token [] (c :: t) rest toks (by simp) (by simp)
          (by
            intro x hx
            rcases List.mem_cons.mp hx with e | e
            · rw [e]; exact hc
            · exact h3 x e) h4 h5
        simpa using this
      · intro fld
        obtain ⟨t, rest, toks, h1, h2, h3, h4, h5⟩ := ih2 (fld ++ [c])
        refine ⟨c :: t, rest, toks, ?_, by rw [h2]; rfl, ?_, h4, h5⟩
        · simp only [List.foldl_cons, fieldsStep, hc, Bool.false_eq_true, if_false]
          rw [h1]; simp
        · intro x hx
          rcases List.mem_cons.mp hx with e | e
          · rw [e]; exact hc
          · exact h3 x e

/-- The tokens of `Fields` are the tokens of the text. -/
theorem Fields_spec (s : Str) : FieldsOf s (Fields s) := (fields_loop_spec s).1

/-- Tokens are non-empty and free of whitespace. -/
theorem FieldsOf_tokens (s : Str) (toks : List Str) (h : FieldsOf s toks) :
    ∀ t ∈ toks, t ≠ [] ∧ ∀ c ∈ t, isSpace c = false := by
  induction h with
  | blank ws hws => simp
  | token ws t rest toks hws hne ht hrest htail ih =>
    intro x hx
    rcases List.mem_cons.mp hx with e | e
    · rw [e]; exact ⟨hne, ht⟩
    · exact ih x e

/-- A text of whitespace only has no token. -/
theorem FieldsOf_blank (s : Str) (toks : List Str) (h : FieldsOf s toks)
    (hs : ∀ c ∈ s, isSpace c = true) : toks = [] := by
  cases h with
  | blank ws hws => rfl
  | token ws t rest toks hws hne ht hrest htail =>
    exfalso
    cases t with
    | nil => exact hne rfl
    | cons a t2 =>
      have h1 := hs a (by simp)
      have h2 := ht a (by simp)
      rw [h1] at h2
      exact Bool.noConfusion h2

/-- A text splits in one way only into a run of characters with a property and
a remainder that is empty or begins with a character without it. -/
theorem run_split_unique (p : Char → Bool) :
    ∀ (a1 a2 b1 b2 : Str), a1 ++ b1 = a2 ++ b2 →
      (∀ c ∈ a1, p c = true) → (∀ c ∈ a2, p c = true) →
      (∀ c ∈ b1.head?, p c = false) → (∀ c ∈ b2.head?, p c = false) →
      a1 = a2 ∧ b1 = b2 := by
  intro a1
  induction a1 with
  | nil =>
    intro a2 b1 b2 h _ h2 h3 _
    cases a2 with
    | nil => exact ⟨rfl, by simpa using h⟩
    | cons d a2 =>
      exfalso
      simp only [List.nil_append, List.cons_append] at h
      have e1 := h2 d (by simp)
      have e2 := h3 d (by rw [h]; simp)
      rw [e1] at e2
      exact Bool.noConfusion e2
  | cons c a1 ih =>
    intro a2 b1 b2 h h1 h2 h3 h4
    cases a2 with
    | nil =>
      exfalso
      simp only [List.nil_append, List.cons_append] at h
      have e1 := h1 c (by simp)
      have e2 := h4 c (by rw [← h]; simp)
      rw [e1] at e2
      exact Bool.noConfusion e2
    | cons d a2 =>
      simp only [List.cons_append, List.cons.injEq] at h
      obtain ⟨e1, e2⟩ := ih a2 b1 b2 h.2
        (fun x hx => h1 x (List.mem_cons_of_mem _ hx))
        (fun x hx => h2 x (List.mem_cons_of_mem _ hx)) h3 h4
      exact ⟨by rw [h.1, e1], e2⟩

/-- A text has one list of tokens only. -/
theorem FieldsOf_unique (s : Str) (a : List Str) (ha : FieldsOf s a) :
    ∀ b : List Str, FieldsOf s b → a = b := by
  induction ha with
  | blank ws hws =>
    intro b hb
    exact (FieldsOf_blank ws b hb hws).symm
  | token ws t rest toks hws hne ht hrest htail ih =>
    intro b hb
    generalize hs : ws ++ t ++ rest = s at hb
    cases hb with
    | blank ws2 hws2 =>
      exfalso
      cases t with
      | nil => exact hne rfl
      | cons x t2 =>
        have e1 := hws2 x (by rw [← hs]; simp)
        have e2 := ht x (by simp)
        rw [e1] at e2
        exact Bool.noConfusion e2
    | token ws2 t2 rest2 toks2 hws2 hne2 ht2 hrest2 htail2 =>
      have hhead : ∀ (u r : Str), u ≠ [] → (∀ c ∈ u, isSpace c = false) →
          ∀ c ∈ (u ++ r).head?, isSpace c = false := by
        intro u r hu hall c hc
        cases u with
        | nil => exact absurd rfl hu
        | cons x u2 =>
          simp only [List.cons_append, List.head?_cons, Option.mem_def, Option.some.injEq] at hc
          rw [← hc]; exact hall x (by simp)
      have hrhead : ∀ r : Str, (r = [] ∨ ∃ c cs, r = c :: cs ∧ isSpace c = true) →
          ∀ c ∈ r.head?, (!isSpace c) = false := by
        intro r hr c hc
        rcases hr with e | ⟨x, cs, e, hx⟩
        · rw [e] at hc; simp at hc
        · rw [e] at hc
          simp only [List.head?_cons, Option.mem_def, Option.some.injEq] at hc
          rw [← hc, hx]; rfl
      rw [List.append_assoc, List.append_assoc] at hs
      obtain ⟨e1, e2⟩ := run_split_unique isSpace ws ws2 (t ++ rest) (t2 ++ rest2) hs hws hws2
        (hhead t rest hne ht) (hhead t2 rest2 hne2 ht2)
      obtain ⟨e3, e4⟩ := run_split_unique (fun c => !isSpace c) t t2 rest rest2 e2
        (fun c hc => by simp [ht c hc]) (fun c hc => by simp [ht2 c hc])
        (hrhead rest hrest) (hrhead rest2 hrest2)
      rw [e3, ih toks2 (by rw [e4]; exact htail2)]

/-- C9: for every environment and key, `envFields` returns the
whitespace-delimited tokens of the value of the variable, in order: none when
the variable is unset, empty or all whitespace; every token is non-empty and
holds no whitespace character; the tokens are the maximal whitespace-free
substrings of the value from left to right, and no other list is; the value
`a  b\tc` yields `a`, `b`, `c`. -/
theorem envFields_tokens (env : Str → Option Str) (key : Str) :
    (env key = none → envFields env key = []) ∧
    (env key = some [] → envFields env key = []) ∧
    ((∀ c ∈ Getenv env key, isSpace c = true) → envFields env key = []) ∧
    (∀ t ∈ envFields env key, t ≠ [] ∧ ∀ c ∈ t, isSpace c = false) ∧
    FieldsOf (Getenv env key) (envFields env key) ∧
    (∀ toks, FieldsOf (Getenv env key) toks → toks = envFields env key) ∧
    (env key = some "a  b\tc".toList →
      envFields env key = ["a".toList, "b".toList, "c".toList]) := by
  have hspec : FieldsOf (Getenv env key) (envFields env key) := Fields_spec _
  refine ⟨?_, ?_, ?_, FieldsOf_tokens _ _ hspec, hspec, ?_, ?_⟩
  · intro h; simp [envFields, Getenv, h]; rfl
  · intro h; simp [envFields, Getenv, h]; rfl
  · intro h; exact FieldsOf_blank _ _ hspec h
  · intro toks h; exact (FieldsOf_unique _ _ hspec toks h).symm
  · intro h
    simp only [envFields, Getenv, h, Option.getD_some]
    decide

/-! ## Theorems: findGcclib -/

namespace filepath

/-- A text without separator has no final separator. -/
theorem lastSepEnd_no_sep : ∀ b : Str, '/' ∉ b → lastSepEnd b = 0 := by
  intro b
  induction b with
  | nil => intro _; rfl
  | cons c t ih =>
    intro h
    simp only [List.mem_cons, not_or] at h
    have hc : ¬ c = '/' := fun e => h.1 e.symm
    simp [lastSepEnd, ih h.2, hc]

/-- The final separator of `d/b`, for `b` without separator, is the one
written. -/
theorem lastSepEnd_append (b : Str) (hb : '/' ∉ b) :
    ∀ d : Str, lastSepEnd (d ++ '/' :: b) = d.length + 1 := by
  intro d
  induction d with
  | nil => simp [lastSepEnd, lastSepEnd_no_sep b hb]
  | cons c t ih => simp [lastSepEnd, ih]

/-- One iteration of the main loop of `Clean`. -/
theorem cleanLoop_step (rooted : Bool) (fuel : Nat) (c : Char) (rest out : Str) (dotdot : Nat) :
    cleanLoop rooted (fuel + 1) (c :: rest) out dotdot =
      if c = '/' then cleanLoop rooted fuel rest out dotdot
      else if c = '.' ∧ (rest = [] ∨ rest.head? = some '/') then
        cleanLoop rooted fuel rest out dotdot
      else if c = '.' ∧ rest.head? = some '.' ∧
          (rest.tail = [] ∨ rest.tail.head? = some '/') then
        if dotdot < out.length then
          cleanLoop rooted fuel rest.tail
            (out.take (backtrack out dotdot (out.length - 1))) dotdot
        else if rooted = false then
          cleanLoop rooted fuel rest.tail
            ((if 0 < out.length then out ++ ['/'] else out) ++ ['.', '.'])
            ((if 0 < out.length then out ++ ['/'] else out) ++ ['.', '.']).length
        else
          cleanLoop rooted fuel rest.tail out dotdot
      else
        cleanLoop rooted fuel ((c :: rest).dropWhile (· ≠ '/'))
          ((if (rooted = true ∧ out.length ≠ 1) ∨ (rooted = false ∧ out.length ≠ 0)
            then out ++ ['/'] else out) ++ (c :: rest).takeWhile (· ≠ '/')) dotdot := by
  rfl

/-- At the end of the input the loop returns the buffer. -/
theorem cleanLoop_nil (rooted : Bool) (fuel : Nat) (out : Str) (dotdot : Nat) :
    cleanLoop rooted fuel [] out dotdot = out := by
  cases fuel <;> rfl

/-- What is left after a path element is no longer than what follows its
first character. -/
theorem dropWhile_cons_length (c : Char) (rest : Str) (hc : c ≠ '/') :
    ((c :: rest).dropWhile (· ≠ '/')).length ≤ rest.length := by
  rw [List.dropWhile_cons_of_pos (by simpa using hc)]
  exact (List.dropWhile_sublist _).length_le

/-- With fuel for every character left, more fuel changes nothing. -/
theorem cleanLoop_fuel (rooted : Bool) :
    ∀ (f1 : Nat) (path out : Str) (dotdot f2 : Nat),
      path.length ≤ f1 → path.length ≤ f2 →
      cleanLoop rooted f1 path out dotdot = cleanLoop rooted f2 path out dotdot := by
  intro f1
  induction f1 with
  | zero =>
    intro path out dotdot f2 h1 _
    have : path = [] := List.length_eq_zero.mp (Nat.le_zero.mp h1)
    subst this
    rw [cleanLoop_nil, cleanLoop_nil]
  | succ n ih =>
    intro path out dotdot f2 h1 h2
    cases path with
    | nil => rw [cleanLoop_nil, cleanLoop_nil]
    | cons c rest =>
      cases f2 with
      | zero => simp at h2
      | succ m =>
        simp only [List.length_cons, Nat.add_le_add_iff_right] at h1 h2
        have ht1 : rest.tail.length ≤ n := le_trans (by simp) h1
        have ht2 : rest.tail.length ≤ m := le_trans (by simp) h2
        rw [cleanLoop_step, cleanLoop_step]
        split
        · exact ih _ _ _ _ h1 h2
        · split
          · exact ih _ _ _ _ h1 h2
          · split
            · split
              · exact ih _ _ _ _ ht1 ht2
              · split
                · exact ih _ _ _ _ ht1 ht2
                · exact ih _ _ _ _ ht1 ht2
            · next hc _ _ =>
              exact ih _ _ _ _ (le_trans (dropWhile_cons_length c rest hc) h1)
                (le_trans (dropWhile_cons_length c rest hc) h2)

end filepath

namespace filepath

/-- A path element read up to a separator does not depend on what follows the
separator. -/
theorem takeWhile_append_sep (y : Str) :
    ∀ x : Str, (x ++ '/' :: y).takeWhile (· ≠ '/') = x.takeWhile (· ≠ '/') := by
  intro x
  induction x with
  | nil => simp
  | cons c t ih =>
    by_cases hc : c = '/'
    · simp [hc]
    · simp only [List.cons_append]
      rw [List.takeWhile_cons_of_pos (by simpa using hc),
        List.takeWhile_cons_of_pos (by simpa using hc), ih]

/-- What is left after a path element keeps what follows the separator. -/
theorem dropWhile_append_sep (y : Str) :
    ∀ x : Str, (x ++ '/' :: y).dropWhile (· ≠ '/') = x.dropWhile (· ≠ '/') ++ '/' :: y := by
  intro x
  induction x with
  | nil => simp
  | cons c t ih =>
    by_cases hc : c = '/'
    · simp [hc]
    · simp only [List.cons_append]
      rw [List.dropWhile_cons_of_pos (by simpa using hc),
        List.dropWhile_cons_of_pos (by simpa using hc), ih]

/-- On a rooted path the loop reads `x/y` by reading `x` and then `/y` from the
buffer reached. -/
theorem cleanLoop_split (y : Str) :
    ∀ (fuel : Nat) (x out : Str) (k : Nat), x.length ≤ fuel → y.length + 1 ≤ k →
      cleanLoop true (fuel + k) (x ++ '/' :: y) out 1 =
        cleanLoop true k ('/' :: y) (cleanLoop true fuel x out 1) 1 := by
  intro fuel
  induction fuel with
  | zero =>
    intro x out k hx _
    have : x = [] := List.length_eq_zero.mp (Nat.le_zero.mp hx)
    subst this
    simp [cleanLoop_nil]
  | succ n ih =>
    intro x out k hx hk
    cases x with
    | nil =>
      rw [cleanLoop_nil, List.nil_append]
      exact cleanLoop_fuel true _ _ _ _ _ (by simp; omega) (by simpa using hk)
    | cons c rest =>
      simp only [List.length_cons, Nat.add_le_add_iff_right] at hx
      have hfuel : n + 1 + k = (n + k) + 1 := by omega
      rw [List.cons_append, hfuel, cleanLoop_step, cleanLoop_step]
      by_cases h1 : c = '/'
      · rw [if_pos h1, if_pos h1]
        exact ih rest out k hx hk
      · rw [if_neg h1, if_neg h1]
        by_cases h2 : c = '.'
        · subst h2
          cases rest with
          | nil =>
            simp only [List.nil_append, List.head?_cons, true_or, or_true, and_self, if_true]
            exact ih [] out k (Nat.zero_le _) hk
          | cons r rest2 =>
            by_cases h3 : r = '/'
            · subst h3
              simp only [List.cons_append, List.head?_cons, or_true, and_self, if_true]
              exact ih ('/' :: rest2) out k hx hk
            · have hx2 : rest2.length ≤ n := by
                simp only [List.length_cons] at hx; omega
              by_cases h4 : r = '.'
              · subst h4
                cases rest2 with
                | nil =>
                  simp only [List.cons_append, List.nil_append, List.head?_cons, List.tail_cons,
                    Option.some.injEq, true_and, or_true, or_false, if_true,
                    List.cons_ne_nil, false_or, and_self]
                  simp only [show ¬ ('.' = '/') by decide, if_false, Bool.true_eq_false]
                  split
                  · exact ih [] _ k (Nat.zero_le _) hk
                  · exact ih [] _ k (Nat.zero_le _) hk
                | cons r3 rest3 =>
                  by_cases h5 : r3 = '/'
                  · subst h5
                    simp only [List.cons_append, List.head?_cons, List.tail_cons,
                      Option.some.injEq, true_and, or_true, if_true,
                      List.cons_ne_nil, false_or]
                    simp only [show ¬ ('.' = '/') by decide, if_false, Bool.true_eq_false]
                    split
                    · exact ih ('/' :: rest3) _ k hx2 hk
                    · exact ih ('/' :: rest3) _ k hx2 hk
                  · simp only [List.cons_append, List.head?_cons, List.tail_cons,
                      Option.some.injEq, true_and, List.cons_ne_nil, false_or, h5,
                      or_false, and_false, if_false]
                    simp only [show ¬ ('.' = '/') by decide, if_false]
                    have e1 := dropWhile_append_sep y ('.' :: '.' :: r3 :: rest3)
                    have e2 := takeWhile_append_sep y ('.' :: '.' :: r3 :: rest3)
                    simp only [List.cons_append] at e1 e2
                    rw [e1, e2]
                    exact ih _ _ k (le_trans (dropWhile_cons_length '.' _ (by decide)) hx) hk
              · simp only [List.cons_append, List.head?_cons, List.tail_cons,
                  Option.some.injEq, true_and, List.cons_ne_nil, false_or, h3, h4,
                  or_false, false_and, and_false, if_false]
                have e1 := dropWhile_append_sep y ('.' :: r :: rest2)
                have e2 := takeWhile_append_sep y ('.' :: r :: rest2)
                simp only [List.cons_append] at e1 e2
                rw [e1, e2]
                exact ih _ _ k (le_trans (dropWhile_cons_length '.' _ (by decide)) hx) hk
        · simp only [h2, false_and, if_false]
          have e1 := dropWhile_append_sep y (c :: rest)
          have e2 := takeWhile_append_sep y (c :: rest)
          simp only [List.cons_append] at e1 e2
          rw [e1, e2]
          exact ih _ _ k (le_trans (dropWhile_cons_length c _ h1) hx) hk

end filepath

namespace filepath

/-- The backwards scan of the `..` case never moves right. -/
theorem backtrack_le (out : Str) (dotdot : Nat) : ∀ w : Nat, backtrack out dotdot w ≤ w := by
  intro w
  induction w with
  | zero => simp [backtrack]
  | succ n ih =>
    simp only [backtrack]
    split
    · exact Nat.le_succ_of_le ih
    · exact Nat.le_refl _

/-- What is left after a path element is empty or begins with a separator. -/
theorem dropWhile_sep_head :
    ∀ l : Str, l.dropWhile (· ≠ '/') = [] ∨ (l.dropWhile (· ≠ '/')).head? = some '/' := by
  intro l
  induction l with
  | nil => simp
  | cons c t ih =>
    by_cases hc : c = '/'
    · right; simp [hc]
    · rw [List.dropWhile_cons_of_pos (by simpa using hc)]
      exact ih

/-- A path element and what is left after it make up the text. -/
theorem takeWhile_dropWhile_length (l : Str) :
    (l.takeWhile (· ≠ '/')).length + (l.dropWhile (· ≠ '/')).length = l.length := by
  rw [← List.length_append, List.takeWhile_append_dropWhile]

/-- On a rooted path the buffer grows by at most the characters read, plus one
for the separator written before an element; and by no more than the
characters read when the loop is at the end, at a separator, or has only the
root in the buffer. -/
theorem cleanLoop_length :
    ∀ (fuel : Nat) (path out : Str),
      (cleanLoop true fuel path out 1).length ≤ out.length + path.length + 1 ∧
      ((path = [] ∨ path.head? = some '/' ∨ out.length = 1) →
        (cleanLoop true fuel path out 1).length ≤ out.length + path.length) := by
  intro fuel
  induction fuel with
  | zero => intro path out; simp [cleanLoop]; omega
  | succ n ih =>
    intro path out
    cases path with
    | nil => simp [cleanLoop_nil]
    | cons c rest =>
      rw [cleanLoop_step]
      by_cases h1 : c = '/'
      · rw [if_pos h1]
        have := (ih rest out).1
        simp only [List.length_cons]
        constructor
        · omega
        · intro _; omega
      · rw [if_neg h1]
        by_cases h2 : c = '.' ∧ (rest = [] ∨ rest.head? = some '/')
        · rw [if_pos h2]
          have := (ih rest out).2 (by rcases h2.2 with h | h; exact Or.inl h; exact Or.inr (Or.inl h))
          simp only [List.length_cons]
          constructor
          · omega
          · intro _; omega
        · rw [if_neg h2]
          by_cases h3 : c = '.' ∧ rest.head? = some '.' ∧
              (rest.tail = [] ∨ rest.tail.head? = some '/')
          · rw [if_pos h3]
            have htl : rest.tail.length ≤ rest.length := by simp
            have hpre : rest.tail = [] ∨ rest.tail.head? = some '/' ∨
                ∀ o : Str, o.length = 1 := by
              rcases h3.2.2 with h | h
              · exact Or.inl h
              · exact Or.inr (Or.inl h)
            have hcond : ∀ o : Str, rest.tail = [] ∨ rest.tail.head? = some '/' ∨ o.length = 1 := by
              intro o
              rcases h3.2.2 with h | h
              · exact Or.inl h
              · exact Or.inr (Or.inl h)
            simp only [List.length_cons, Bool.true_eq_false, if_false]
            split
            · have hb := backtrack_le out 1 (out.length - 1)
              have hlen : (out.take (backtrack out 1 (out.length - 1))).length ≤ out.length := by
                simp
              have := (ih rest.tail (out.take (backtrack out 1 (out.length - 1)))).2 (hcond _)
              constructor
              · omega
              · intro _; omega
            · have := (ih rest.tail out).2 (hcond _)
              constructor
              · omega
              · intro _; omega
          · rw [if_neg h3]
            have hd := dropWhile_sep_head (c :: rest)
            have hsum := takeWhile_dropWhile_length (c :: rest)
            have hpre : (c :: rest).dropWhile (· ≠ '/') = [] ∨
                ((c :: rest).dropWhile (· ≠ '/')).head? = some '/' ∨
                ((if (true = true ∧ out.length ≠ 1) ∨ (true = false ∧ out.length ≠ 0)
                  then out ++ ['/'] else out) ++ (c :: rest).takeWhile (· ≠ '/')).length = 1 := by
              rcases hd with h | h
              · exact Or.inl h
              · exact Or.inr (Or.inl h)
            have := (ih _ _).2 hpre
            simp only [List.length_append] at this
            simp only [ne_eq] at hsum this
            constructor
            · by_cases ho : out.length = 1
              · simp only [ho, ne_eq, not_true_eq_false, and_false, Bool.true_eq_false,
                  false_and, or_self, if_false] at this ⊢
                omega
              · simp only [ho, ne_eq, not_false_eq_true, and_self, true_or, if_true,
                  List.length_append, List.length_singleton] at this ⊢
                omega
            · intro hp
              have ho : out.length = 1 := by
                rcases hp with h | h | h
                · exact absurd h (List.cons_ne_nil _ _)
                · simp only [List.head?_cons, Option.some.injEq] at h
                  exact absurd h h1
                · exact h
              simp only [ho, ne_eq, not_true_eq_false, and_false, Bool.true_eq_false,
                false_and, or_self, if_false] at this ⊢
              omega

end filepath

namespace filepath

/-- A text without separator is one path element. -/
theorem takeWhile_no_sep : ∀ b : Str, '/' ∉ b → b.takeWhile (· ≠ '/') = b := by
  intro b
  induction b with
  | nil => intro _; rfl
  | cons c t ih =>
    intro h
    simp only [List.mem_cons, not_or] at h
    have hc : c ≠ '/' := fun e => h.1 e.symm
    rw [List.takeWhile_cons_of_pos (by simpa using hc), ih h.2]

/-- Nothing is left after a text without separator. -/
theorem dropWhile_no_sep : ∀ b : Str, '/' ∉ b → b.dropWhile (· ≠ '/') = [] := by
  intro b
  induction b with
  | nil => intro _; rfl
  | cons c t ih =>
    intro h
    simp only [List.mem_cons, not_or] at h
    have hc : c ≠ '/' := fun e => h.1 e.symm
    rw [List.dropWhile_cons_of_pos (by simpa using hc), ih h.2]

/-- The loop of `Clean` on the rooted path `/x/`: the buffer reached on `x`. -/
theorem Clean_trailing_sep (x : Str) :
    Clean ('/' :: (x ++ ['/'])) =
      if (cleanLoop true x.length x ['/'] 1).length = 0 then ['.']
      else cleanLoop true x.length x ['/'] 1 := by
  have hlen : ('/' :: (x ++ ['/'])).length = x.length + 2 := by simp
  have h := cleanLoop_split [] x.length x ['/'] 2 (Nat.le_refl _) (by simp)
  have h2 : cleanLoop true 2 ['/'] (cleanLoop true x.length x ['/'] 1) 1 =
      cleanLoop true x.length x ['/'] 1 := by
    rw [cleanLoop_step, if_pos rfl, cleanLoop_nil]
  simp only [Clean, hlen, if_true]
  rw [h, h2]

/-- The loop of `Clean` on the rooted path `/x/b`: the loop on `b` from the
buffer reached on `x`. -/
theorem Clean_last_element (x b : Str) :
    Clean ('/' :: (x ++ '/' :: b)) =
      if (cleanLoop true (b.length + 1) b (cleanLoop true x.length x ['/'] 1) 1).length = 0
      then ['.']
      else cleanLoop true (b.length + 1) b (cleanLoop true x.length x ['/'] 1) 1 := by
  have hlen : ('/' :: (x ++ '/' :: b)).length = x.length + (b.length + 2) := by
    simp; omega
  have h := cleanLoop_split b x.length x ['/'] (b.length + 2) (Nat.le_refl _) (by omega)
  have h2 : cleanLoop true (b.length + 2) ('/' :: b) (cleanLoop true x.length x ['/'] 1) 1 =
      cleanLoop true (b.length + 1) b (cleanLoop true x.length x ['/'] 1) 1 := by
    rw [cleanLoop_step, if_pos rfl]
  simp only [Clean, hlen, if_true]
  rw [h, h2]

/-- The parent of a clean rooted path: if `d/b` is rooted and clean, with `d`
not empty and `b` one non-empty element, then `Clean` takes `d/` to `d`. -/
theorem Clean_parent (d b : Str) (hd : d ≠ []) (hb : b ≠ []) (hsep : '/' ∉ b)
    (habs : IsAbs (d ++ '/' :: b) = true)
    (hclean : Clean (d ++ '/' :: b) = d ++ '/' :: b) :
    Clean (d ++ ['/']) = d := by
  cases d with
  | nil => exact absurd rfl hd
  | cons c0 x =>
    have hc0 : c0 = '/' := by
      simp only [IsAbs, HasPrefix, List.cons_append, List.length_cons, List.length_nil,
        List.take_succ_cons, List.take_zero] at habs
      simpa using habs
    subst hc0
    simp only [List.cons_append] at hclean ⊢
    rw [Clean_last_element] at hclean
    rw [Clean_trailing_sep]
    have hbound := (cleanLoop_length x.length x ['/']).2 (Or.inr (Or.inr rfl))
    simp only [List.length_singleton] at hbound
    generalize cleanLoop true x.length x ['/'] 1 = od at hclean hbound ⊢
    have key : od = '/' :: x := by
      cases b with
      | nil => exact absurd rfl hb
      | cons c rest =>
        simp only [List.mem_cons, not_or] at hsep
        have h1 : ¬ c = '/' := fun e => hsep.1 e.symm
        have hrest : ¬ rest.head? = some '/' := by
          intro h
          cases rest with
          | nil => simp at h
          | cons r rest2 =>
            simp only [List.head?_cons, Option.some.injEq] at h
            exact hsep.2 (by rw [h]; simp)
        rw [List.length_cons, cleanLoop_step, if_neg h1] at hclean
        by_cases h2 : c = '.' ∧ (rest = [] ∨ rest.head? = some '/')
        · exfalso
          have hr0 : rest = [] := by
            rcases h2.2 with h | h
            · exact h
            · exact absurd h hrest
          rw [if_pos h2, hr0, cleanLoop_nil] at hclean
          split at hclean
          · simp at hclean
          · have := congrArg List.length hclean
            simp at this
            omega
        · rw [if_neg h2] at hclean
          by_cases h3 : c = '.' ∧ rest.head? = some '.' ∧
              (rest.tail = [] ∨ rest.tail.head? = some '/')
          · exfalso
            have htail : rest.tail = [] := by
              rcases h3.2.2 with h | h
              · exact h
              · exfalso
                cases rest with
                | nil => simp at h
                | cons r rest2 =>
                  cases rest2 with
                  | nil => simp at h
                  | cons r3 rest3 =>
                    simp only [List.tail_cons, List.head?_cons, Option.some.injEq] at h
                    exact hsep.2 (by rw [h]; simp)
            rw [if_pos h3, htail] at hclean
            simp only [cleanLoop_nil, Bool.true_eq_false, if_false] at hclean
            have hb2 := backtrack_le od 1 (od.length - 1)
            split at hclean
            · split at hclean
              · simp at hclean
              · have := congrArg List.length hclean
                simp at this
                omega
            · split at hclean
              · simp at hclean
              · have := congrArg List.length hclean
                simp at this
                omega
          · rw [if_neg h3] at hclean
            have hsep2 : '/' ∉ c :: rest := by
              simp only [List.mem_cons, not_or]; exact hsep
            rw [takeWhile_no_sep _ hsep2, dropWhile_no_sep _ hsep2, cleanLoop_nil] at hclean
            rw [if_neg (by simp)] at hclean
            have e : (if (true = true ∧ od.length ≠ 1) ∨ (true = false ∧ od.length ≠ 0)
                then od ++ ['/'] else od) = ('/' :: x) ++ ['/'] := by
              have e0 : (if (true = true ∧ od.length ≠ 1) ∨ (true = false ∧ od.length ≠ 0)
                  then od ++ ['/'] else od) ++ (c :: rest) =
                  (('/' :: x) ++ ['/']) ++ (c :: rest) := by
                rw [hclean]; simp
              exact List.append_cancel_right e0
            by_cases ho : od.length = 1
            · exfalso
              simp only [ho, ne_eq, not_true_eq_false, and_false, Bool.true_eq_false,
                false_and, or_self, if_false] at e
              have := congrArg List.length e
              simp at this
              omega
            · simp only [ho, ne_eq, not_false_eq_true, and_self, true_or, if_true] at e
              exact List.append_cancel_right e
    rw [key]
    simp

end filepath

/-- The directory of `d/b`, for `b` without separator, is `Clean` of `d/`. -/
theorem Dir_append (d b : Str) (hb : '/' ∉ b) :
    filepath.Dir (d ++ '/' :: b) = filepath.Clean (d ++ ['/']) := by
  unfold filepath.Dir
  rw [filepath.lastSepEnd_append b hb d]
  have : (d ++ '/' :: b).take (d.length + 1) = d ++ ['/'] := by
    have e : d ++ '/' :: b = (d ++ ['/']) ++ b := by simp
    rw [e, List.take_left']
    simp
  rw [this]

/-- C10 (amended): when the run of `gcc --print-libgcc-file-name` fails,
`findGcclib` returns the empty string and that error.  When it succeeds and
prints an absolute, lexically clean path `d/b` whose final element `b` is not
empty, with or without a trailing newline, `findGcclib` returns, with a nil
error, `d` when `d` is not empty and `/` when it is (a file directly under the
root); the output `/usr/lib/gcc/x86_64-linux-gnu/9/libgcc.a` yields
`/usr/lib/gcc/x86_64-linux-gnu/9`. -/
theorem findGcclib_dir (runCmd : Cmd → Option Error × Str) :
    (∀ (err : Error) (out : Str), runCmd gccCmd = (some err, out) →
      findGcclib runCmd = ([], some err)) ∧
    (∀ (d b out : Str), b ≠ [] → '/' ∉ b →
      filepath.IsAbs (d ++ '/' :: b) = true →
      filepath.Clean (d ++ '/' :: b) = d ++ '/' :: b →
      (out = d ++ '/' :: b ∨ out = d ++ '/' :: b ++ ['\n']) →
      runCmd gccCmd = (none, out) →
      findGcclib runCmd = (if d = [] then ['/'] else d, none)) ∧
    (runCmd gccCmd = (none, "/usr/lib/gcc/x86_64-linux-gnu/9/libgcc.a".toList) →
      findGcclib runCmd = ("/usr/lib/gcc/x86_64-linux-gnu/9".toList, none)) := by
  have hcmd : ∀ r : Option Error × Str, runCmd gccCmd = r →
      findGcclib runCmd =
        match r with
        | (some err, _) => ([], some err)
        | (none, buf) => (filepath.Dir buf, none) := by
    intro r hr
    subst hr
    rfl
  refine ⟨?_, ?_, ?_⟩
  · intro err out h
    rw [hcmd _ h]
  · intro d b out hb hsep habs hclean hout hrun
    rw [hcmd _ hrun]
    simp only
    have hdir : filepath.Dir out = filepath.Clean (d ++ ['/']) := by
      rcases hout with h | h
      · rw [h]; exact Dir_append d b hsep
      · rw [h]
        have e : d ++ '/' :: b ++ ['\n'] = d ++ '/' :: (b ++ ['\n']) := by simp
        rw [e]
        apply Dir_append
        intro hm
        rcases List.mem_append.mp hm with h1 | h1
        · exact hsep h1
        · revert h1; decide
    rw [hdir]
    by_cases hd : d = []
    · subst hd
      simp only [if_true, List.nil_append]
      rfl
    · rw [if_neg hd, filepath.Clean_parent d b hd hb hsep habs hclean]
  · intro hrun
    rw [hcmd _ hrun]
    decide

/-- Witness for `findGcclib_dir`: the output of `gcc` with its newline. -/
theorem findGcclib_dir_witness :
    findGcclib sampleRunner =
      (if "/usr/lib/gcc/x86_64-linux-gnu/9".toList = [] then ['/']
       else "/usr/lib/gcc/x86_64-linux-gnu/9".toList, none) :=
  (findGcclib_dir sampleRunner).2.1 "/usr/lib/gcc/x86_64-linux-gnu/9".toList
    "libgcc.a".toList "/usr/lib/gcc/x86_64-linux-gnu/9/libgcc.a\n".toList
    (by decide) (by decide) (by decide) (by decide) (Or.inr (by decide)) rfl

/-- C10 (counterexample): `/libgcc.a` is absolute and lexically clean, its final
element is `libgcc.a` and what stands before the separating slash is empty, yet
`findGcclib` returns `/`, not the empty string. -/
theorem findGcclib_root_file :
    filepath.IsAbs "/libgcc.a".toList = true ∧
    filepath.Clean "/libgcc.a".toList = "/libgcc.a".toList ∧
    "/libgcc.a".toList = [] ++ '/' :: "libgcc.a".toList ∧
    rootRunner gccCmd = (none, "/libgcc.a".toList) ∧
    findGcclib rootRunner = (['/'], none) ∧
    findGcclib rootRunner ≠ ([], none) := by
  decide

end LlgoBuild
